import Mathlib

/-!
# Verification of the stgit unified-diff hunk engine

This file gives a shallow embedding of the hunk engine of the `vscode-stgit`
extension (`src/diff-mode.ts` and `src/diff-provider.ts`) and proves the
stated properties about it.

Strings are modelled as Lean `String`s; most parsing helpers work on the
underlying `List Char` (`String.data`), which for the ASCII text handled by
the engine coincides with JavaScript's UTF-16 view.  JavaScript `number`s
that are known to be integers are modelled as `Int`/`Nat`.
-/

namespace StgitDiff

/-- JS `s.startsWith(pre)` (ASCII inputs). -/
def strStartsWith (s pre : String) : Bool := pre.data.isPrefixOf s.data

/-- JS `s.slice(n)` for a nonnegative `n`: drop the first `n` characters. -/
def strDrop (s : String) (n : Nat) : String := String.mk (s.data.drop n)

/-- First character of a string, if any (JS `s[0]`, `undefined` mapped to `none`). -/
def headChar (s : String) : Option Char := s.data.head?

/-- JS `str.split(sep)` for a one-character separator: split a character list
at every occurrence of `c`.  The result is always nonempty. -/
def splitOnChar (c : Char) : List Char → List (List Char)
  | [] => [[]]
  | x :: xs =>
    if x = c then
      [] :: splitOnChar c xs
    else
      match splitOnChar c xs with
      | [] => [[x]]
      | p :: ps => (x :: p) :: ps

/-- JS `parts.join(sep)` on strings. -/
def strJoin (sep : String) (parts : List String) : String :=
  String.mk (List.intercalate sep.data (parts.map String.data))

/-- Digit value of a character (used after an `isDigit` test). -/
def digitVal (c : Char) : Nat := c.toNat - 48

/-- Decimal digit character for `d < 10`. -/
def digitChar (d : Nat) : Char :=
  match d with
  | 0 => '0' | 1 => '1' | 2 => '2' | 3 => '3' | 4 => '4'
  | 5 => '5' | 6 => '6' | 7 => '7' | 8 => '8' | _ => '9'

/-- Decimal digits of `n`, most significant first.  The JS source prints
numbers with `${n}`; this is the same decimal rendering, written with
structural fuel (any `fuel > n` yields the digits, see
`natDigitsAux_fuel_irrelevant`). -/
def natDigitsAux : Nat → Nat → List Char
  | 0, _ => []
  | fuel + 1, n =>
    if n < 10 then [digitChar n]
    else natDigitsAux fuel (n / 10) ++ [digitChar (n % 10)]

/-- Decimal rendering of a natural number as a character list. -/
def natDigits (n : Nat) : List Char := natDigitsAux (n + 1) n

/-- Decimal rendering of an integer (JS template `${n}` for an integral number). -/
def renderInt (n : Int) : String :=
  if n < 0 then String.mk ('-' :: natDigits n.natAbs) else String.mk (natDigits n.toNat)

/-- Numeric value of a list of decimal digits, most significant first. -/
def digitsToNat (ds : List Char) : Nat := ds.foldl (fun a c => 10 * a + digitVal c) 0

/-- Longest prefix of decimal digits and the remaining characters
(the behaviour of a greedy `[0-9]*` regex group). -/
def spanDigits : List Char → List Char × List Char
  | [] => ([], [])
  | c :: cs =>
    if c.isDigit then
      let (ds, r) := spanDigits cs
      (c :: ds, r)
    else ([], c :: cs)

/-- JS `parseInt(str)` restricted to the shapes produced by diff headers and
split specs: an optional sign followed by a longest run of decimal digits;
`none` models `NaN` (no digits).  The JS extras (whitespace trimming, hex
prefixes) are unreachable for the strings this code base feeds to `parseInt`. -/
def jsParseInt (cs : List Char) : Option Int :=
  match cs with
  | '-' :: rest =>
    match spanDigits rest with
    | ([], _) => none
    | (ds, _) => some (-(digitsToNat ds : Int))
  | '+' :: rest =>
    match spanDigits rest with
    | ([], _) => none
    | (ds, _) => some (digitsToNat ds)
  | _ =>
    match spanDigits cs with
    | ([], _) => none
    | (ds, _) => some (digitsToNat ds)

/-- One side of a parsed hunk (`class HunkText` in `diff-mode.ts`).
`srcLine` is the 0-based start line recorded in the hunk header. -/
structure HunkText where
  srcLine : Int
  text : List String
  linemap : List Nat
  missingNewline : Bool
deriving DecidableEq, Repr

/-- Source `HunkText.matchesAtLine`: the side's `text` appears as an exact
contiguous block of document lines starting at `line`.  The document is the
abstract `numLines`/`getLine` view, modelled as a list of lines. -/
def HunkText.matchesAtLine (t : HunkText) (d : List String) (line : Int) : Bool :=
  if line < 0 || (line + t.text.length : Int) > (d.length : Int) then false
  else t.text.isPrefixOf (d.drop line.toNat)

/-- Stop bound of the outward search loop in `HunkText.find`: once
`offs ≥ searchBound`, both `line - offs < 0` and `line + offs ≥ d.length`. -/
def searchBound (d : List String) (line : Int) : Int :=
  max (line + 1) ((d.length : Int) - line)

/-- The body of the unbounded `for (let offs = 1; ; offs += 1)` loop of source
`HunkText.find`.  The source loop always terminates: once `offs` reaches
`searchBound d line` the stop test fires.  We pass that bound explicitly as
structural fuel; `find` supplies strictly more fuel than the loop can consume,
so the fuel-exhausted case is unreachable (see `findAux_fuel_irrelevant`). -/
def findAux (t : HunkText) (d : List String) (line : Int) : Nat → Int → Int
  | 0, _ => -1
  | fuel + 1, offs =>
    if line - offs < 0 ∧ line + offs ≥ (d.length : Int) then -1
    else if t.matchesAtLine d (line - offs) then line - offs
    else if t.matchesAtLine d (line + offs) then line + offs
    else findAux t d line fuel (offs + 1)

/-- Source `HunkText.find`: clamp the recorded start line from above to the
last document line, try an exact match there, then search outward
symmetrically, up before down, until both directions are exhausted.
Returns the matching line or `-1`. -/
def HunkText.find (t : HunkText) (d : List String) : Int :=
  let line := min t.srcLine ((d.length : Int) - 1)
  if t.matchesAtLine d line then line
  else findAux t d line ((searchBound d line).toNat + 1) 1

/-- JS `s.startsWith(marker) || s.startsWith(' ')`: the body line belongs to
the side selected by `marker` ('-' or '+'). -/
def accepts (marker : Char) (s : String) : Bool :=
  strStartsWith s (String.mk [marker]) || strStartsWith s " "

/-- The `hunkLines.forEach` accumulation loop of source `HunkText.fromSpec`,
with the accumulated `lines`, `lineMap` and `missingNewline` state made
explicit.  `lineMap` records, for every raw body line, how many lines were
accepted before it; `missingNewline` becomes true whenever an accepted line is
immediately followed by a line starting with `'\'`
(JS `hunkLines[i + 1]?.startsWith('\\')`). -/
def collectGo (marker : Char) :
    List String → List String → List Nat → Bool → List String × List Nat × Bool
  | [], lines, lmap, mn => (lines, lmap, mn)
  | s :: rest, lines, lmap, mn =>
    let lmap' := lmap ++ [lines.length]
    if accepts marker s then
      let mn' := if strStartsWith ((rest.head?).getD "") "\\" then true else mn
      collectGo marker rest (lines ++ [strDrop s 1]) lmap' mn'
    else
      collectGo marker rest lines lmap' mn

/-- Accumulation pass of `HunkText.fromSpec` started from the empty state. -/
def collect (marker : Char) (hunkLines : List String) : List String × List Nat × Bool :=
  collectGo marker hunkLines [] [] false

/-- Source `HunkText.fromSpec`: parse one side of a hunk from the raw body
lines and a range spec such as `-12,5`.  Mirrors the JS line by line:
the first character selects the side; the remainder is split at `','` into a
1-based start line and an optional count (defaulting to `"1"`); the parse
fails (`none`) when the declared count does not equal the number of collected
lines, or when the count is not a number (JS `NaN === lines.length` is false).
When the start-line field fails to parse, JS stores `NaN` as `srcLine`; we
store `0` — no other field is affected, and no engine path observes a
`HunkText` with an unparsable start field. -/
def HunkText.fromSpec (hunkLines : List String) (spec : String) : Option HunkText :=
  match spec.data with
  | [] => none
  | marker :: restCs =>
    if marker = '-' ∨ marker = '+' then
      let parts := splitOnChar ',' restCs
      let lineCs := parts.headD []
      let countCs := (parts.get? 1).getD ['1']
      let srcLine := (jsParseInt lineCs).getD 0 - 1
      let res := collect marker hunkLines
      match jsParseInt countCs with
      | some n =>
        if n = (res.1.length : Int) then
          some ⟨srcLine, res.1, res.2.1, res.2.2⟩
        else none
      | none => none
    else none

/-- A parsed hunk (`class Hunk` in `diff-mode.ts`). -/
structure Hunk where
  line : Nat
  fromText : HunkText
  toText : HunkText
  numHunkLines : Nat
deriving DecidableEq, Repr

/-- The hunk with its two sides exchanged (used to state the Revert/Unstage
side-swap claims). -/
def Hunk.swap (h : Hunk) : Hunk :=
  ⟨h.line, h.toText, h.fromText, h.numHunkLines⟩

/-- Lines of a document text, as both `vscode.TextDocument` and
`index.split('\n')` expose them: split at every `'\n'`. -/
def docLines (doc : String) : List String :=
  (splitOnChar '\n' doc.data).map String.mk

/-- The single edit of source `doApplyHunk`: replace the character range from
the start of line `m` to the start of line `m + len` with `repl`
(`builder.replace(range, ...)`).  When `m + len` is past the last line the end
position is clamped to the end of the document, exactly as `vscode` validates
an out-of-range `Position`. -/
def editReplaceLines (doc : String) (m len : Nat) (repl : String) : String :=
  let lines := docLines doc
  String.mk
    (((lines.take m).map (fun s => s.data ++ ['\n'])).flatten
      ++ repl.data
      ++ (if m + len < lines.length then
            List.intercalate ['\n'] ((lines.drop (m + len)).map String.data)
          else []))

/-- Outcome reported by an apply/revert operation. -/
inductive PatchMsg where
  | ok
  | alreadyApplied
  | notFound
deriving DecidableEq, Repr

/-- Source `DiffMode.doApplyHunk`, after the target document has been
obtained, as a function from the document text to the new document text and
the reported outcome.  On `reverse` the two sides are exchanged; if `fromText`
is not located the document is untouched and the message distinguishes whether
`toText` is present ("Patch already applied!") or not ("Failed to find text to
patch"); otherwise the matched range of `fromText.text.length` lines is
replaced by `toText.text` joined with `'\n'`, with a trailing newline unless
`toText.missingNewline` or `toText.text` is empty. -/
def doApplyHunk (reverse : Bool) (h : Hunk) (doc : String) : String × PatchMsg :=
  let ft := if reverse then (h.toText, h.fromText) else (h.fromText, h.toText)
  let fromText := ft.1
  let toText := ft.2
  let lines := docLines doc
  let matchLine := fromText.find lines
  if matchLine < 0 then
    if toText.find lines ≠ -1 then (doc, .alreadyApplied)
    else (doc, .notFound)
  else
    let nl := if toText.missingNewline || toText.text.length = 0 then "" else "\n"
    (editReplaceLines doc matchLine.toNat fromText.text.length
      (strJoin "\n" toText.text ++ nl), .ok)

/-- Outcome reported by a stage/unstage operation. -/
inductive StageResult where
  | staged (newContents : String)
  | alreadyStaged
  | notFound
deriving DecidableEq, Repr

/-- JS `index.includes('\r\n')`. -/
def containsCRLF : List Char → Bool
  | [] => false
  | '\r' :: '\n' :: _ => true
  | _ :: rest => containsCRLF rest

/-- JS `index.replace(/\r\n/g, '\n')`. -/
def replaceCRLF : List Char → List Char
  | [] => []
  | '\r' :: '\n' :: rest => '\n' :: replaceCRLF rest
  | c :: rest => c :: replaceCRLF rest

/-- Source `DiffMode.stageOrUnstageHunk`, after the index blob has been read,
as a function from the blob text to the result written back (or the reported
failure).  On `stage = false` the two sides are exchanged.  The blob is
normalised to LF, split into lines, patched in place by `splice`, adjusted for
a missing trailing newline on either side, and re-joined with the blob's
original line terminator. -/
def stageOrUnstageHunk (stage : Bool) (h : Hunk) (index : String) : StageResult :=
  let usesCRLF := containsCRLF index.data
  let lines := (splitOnChar '\n' (replaceCRLF index.data)).map String.mk
  let ft := if stage then (h.fromText, h.toText) else (h.toText, h.fromText)
  let fromText := ft.1
  let toText := ft.2
  let matchLine := fromText.find lines
  if matchLine < 0 then
    if toText.find lines ≠ -1 then .alreadyStaged
    else .notFound
  else
    let lines2 := lines.take matchLine.toNat ++ toText.text
      ++ lines.drop (matchLine.toNat + fromText.text.length)
    let lines3 :=
      if fromText.missingNewline && !toText.missingNewline then lines2 ++ [""]
      else if toText.missingNewline && !fromText.missingNewline then lines2.dropLast
      else lines2
    .staged (strJoin (if usesCRLF then "\r\n" else "\n") lines3)

/-- The `--- `/`+++ ` file-path pair (`class DiffHeader`). -/
structure DiffHeader where
  fromPath : String
  toPath : String
deriving DecidableEq, Repr

/-- JS `s.indexOf('/')`: index of the first `'/'`, or `-1`. -/
def idxOfSlash (s : String) : Int :=
  match s.data.findIdx? (· = '/') with
  | some i => (i : Int)
  | none => -1

/-- The `stripPath` helper inside source `DiffHeader.fromLine`: drop the
4-character marker, then drop everything up to and including the first `'/'`
— unless the stored path starts with `'/'`, in which case the WHOLE original
line (marker included) is returned (`return path`, not `return s`). -/
def stripPath (path : String) : String :=
  let s := strDrop path 4
  if !strStartsWith s "/" then strDrop s (idxOfSlash s + 1).toNat
  else path

/-- Modelled from the spec's words for claim C8: path prefixes are stripped
"unless the stored path is absolute (begins with '/'), in which case the path
is kept unstripped" — i.e. for an absolute path the STORED path (the text
after the four-character marker) is returned as is.  The source instead
returns the whole line, marker included (`return path`, not `return s`);
`spec_C8_cex` exhibits the difference. -/
def stripPathSpec (path : String) : String :=
  let s := strDrop path 4
  if strStartsWith s "/" then s
  else strDrop s (idxOfSlash s + 1).toNat

/-- Scanning loop of source `DiffHeader.fromLine`: the largest index
`start ≤ line` whose line starts with `"--- "`, found by walking upward. -/
def scanForFrom (d : List String) : Nat → Option Nat
  | 0 => if strStartsWith (d.getD 0 "") "--- " then some 0 else none
  | i + 1 =>
    if strStartsWith (d.getD (i + 1) "") "--- " then some (i + 1)
    else scanForFrom d i

/-- Source `DiffHeader.fromLine` on a document given as a list of lines:
walk upward from `line` to the nearest `"--- "` line, require the next line
to start with `"+++ "`, and strip both paths.  (When the `"--- "` line is the
document's last line, `doc.lineAt(start + 1)` throws in vscode; no header is
produced, modelled as `none`.) -/
def DiffHeader.fromLine (d : List String) (line : Nat) : Option DiffHeader :=
  match scanForFrom d line with
  | none => none
  | some start =>
    match d.get? (start + 1) with
    | none => none
    | some toStr =>
      if strStartsWith toStr "+++ " then
        some ⟨stripPath (d.getD start ""), stripPath toStr⟩
      else none

/-- Render a hunk header line, the template
`` `@@ -${fStart},${fCnt} +${tStart},${tCnt} @@${rest}` `` of source
`DiffProvider.fixHunkNumbering` (the `'@#'` replacement uses the same shape
with zero counts and empty `rest`). -/
def renderHeader (fStart fCnt tStart tCnt : Nat) (rest : String) : String :=
  String.mk ('@' :: '@' :: ' ' :: '-' :: natDigits fStart
    ++ ',' :: natDigits fCnt
    ++ ' ' :: '+' :: natDigits tStart
    ++ ',' :: natDigits tCnt
    ++ ' ' :: '@' :: '@' :: rest.data)

/-- The header regex `@@ [-]([0-9]*),[0-9]* [+]([0-9]*),[0-9]* @@(.*)` of
source `fixHunkNumbering`, as a deterministic parser anchored at the start of
the line (every call site passes a line starting with `"@@"`; the JS regex is
unanchored but can only match later in pathological lines no git diff
produces).  The two start groups are required to be nonempty: an empty group
would make JS compute with `NaN`, which again no git-produced header
triggers. -/
def matchHeader (s : String) : Option (Nat × Nat × String) :=
  match s.data with
  | '@' :: '@' :: ' ' :: '-' :: r0 =>
    match spanDigits r0 with
    | ([], _) => none
    | (d1, r1) =>
      match r1 with
      | x1 :: r2 =>
        if x1 = ',' then
          match (spanDigits r2).2 with
          | x2 :: x3 :: r4 =>
            if x2 = ' ' ∧ x3 = '+' then
              match spanDigits r4 with
              | ([], _) => none
              | (d2, r5) =>
                match r5 with
                | x4 :: r6 =>
                  if x4 = ',' then
                    match (spanDigits r6).2 with
                    | x5 :: x6 :: x7 :: rest2 =>
                      if x5 = ' ' ∧ x6 = '@' ∧ x7 = '@' then
                        some (digitsToNat d1, digitsToNat d2, String.mk rest2)
                      else none
                    | _ => none
                  else none
                | [] => none
            else none
          | _ => none
        else none
      | [] => none
  | _ => none

/-- The accumulation loop of source `fixHunkNumbering` (`for ... switch` over
`lines[i]?.[0]`), walking the lines after a hunk header.  It counts `' '`/`-`
lines into the old count and `' '`/`+` lines into the new count, stops at the
first other line, and when that line is exactly the split marker `"@#"`
replaces it by a synthesized zero-count header carrying the accumulated
starts.  The source walks the shared array by index; this walks the suffix
after the header and returns it (with the at-most-one replacement applied)
together with both counts. -/
def walkBody (fStart tStart : Nat) : List String → Nat → Nat → Nat × Nat × List String
  | [], fCnt, tCnt => (fCnt, tCnt, [])
  | s :: rest, fCnt, tCnt =>
    match s.data with
    | ' ' :: _ =>
      let r := walkBody fStart tStart rest (fCnt + 1) (tCnt + 1)
      (r.1, r.2.1, s :: r.2.2)
    | '+' :: _ =>
      let r := walkBody fStart tStart rest fCnt (tCnt + 1)
      (r.1, r.2.1, s :: r.2.2)
    | '-' :: _ =>
      let r := walkBody fStart tStart rest (fCnt + 1) tCnt
      (r.1, r.2.1, s :: r.2.2)
    | '@' :: _ =>
      if s = "@#" then
        (fCnt, tCnt, renderHeader (fStart + fCnt) 0 (tStart + tCnt) 0 "" :: rest)
      else (fCnt, tCnt, s :: rest)
    | _ => (fCnt, tCnt, s :: rest)

/-- Source `DiffProvider.fixHunkNumbering` at index `hunkStart`: if the line
there matches the header regex, walk its body, convert a reached split marker
into a zero-count header, and rewrite the header with the recomputed counts. -/
def fixHunk (lines : List String) (hunkStart : Nat) : List String :=
  match lines.get? hunkStart with
  | none => lines
  | some hl =>
    match matchHeader hl with
    | none => lines
    | some (fStart, tStart, rest) =>
      let r := walkBody fStart tStart (lines.drop (hunkStart + 1)) 0 0
      lines.take hunkStart ++ [renderHeader fStart r.1 tStart r.2.1 rest] ++ r.2.2

/-- The `diffLines.forEach` renumbering pass of source `applyHunkSplitting`:
visit indices `0, 1, …` of the live array and run `fixHunkNumbering` at every
line that starts with `"@@"` at the time it is visited.  `fixHunk` preserves
the length, so the JS `forEach` visits exactly the original length of the
array; that length is the structural fuel. -/
def renumberFrom : Nat → List String → Nat → List String
  | 0, lines, _ => lines
  | fuel + 1, lines, i =>
    match lines.get? i with
    | none => lines
    | some s =>
      let l2 := if strStartsWith s "@@" then fixHunk lines i else lines
      renumberFrom fuel l2 (i + 1)

/-- The full renumbering pass over a list of diff lines. -/
def renumberAll (lines : List String) : List String :=
  renumberFrom lines.length lines 0

/-- Index at which JS `Array.splice(n, 0, x)` inserts: `NaN` becomes `0`,
negative indices count from the end, and the index is clamped to the
length. -/
def spliceIndex (len : Nat) (n : Option Int) : Nat :=
  match n with
  | none => 0
  | some k => if k < 0 then (len + k).toNat else min k.toNat len

/-- Insert the split marker line `"@#"` at index `n`
(JS `diffLines.splice(n, 0, "@#")`). -/
def insertMarkerAt (l : List String) (n : Nat) : List String :=
  l.take n ++ ["@#"] ++ l.drop n

/-- Source `DiffProvider.applyHunkSplitting`: with no split spec (absent or
empty, both falsy in JS) the diff is returned unchanged; otherwise the spec is
split at `';'`, each offset is parsed, a marker is spliced in at each offset
in order, the renumbering pass runs, and the lines are re-joined. -/
def applyHunkSplitting (diff : String) (splitSpec : Option String) : String :=
  match splitSpec with
  | none => diff
  | some spec =>
    if spec = "" then diff
    else
      let splits := (splitOnChar ';' spec.data).map jsParseInt
      let diffLines := (splitOnChar '\n' diff.data).map String.mk
      let spliced := splits.foldl (fun l n => insertMarkerAt l (spliceIndex l.length n)) diffLines
      strJoin "\n" (renumberAll spliced)

/-- Insert an integer into an ascending list (helper for `sortAsc`). -/
def insertAsc (x : Int) : List Int → List Int
  | [] => [x]
  | y :: r => if x ≤ y then x :: y :: r else y :: insertAsc x r

/-- Ascending numeric sort, JS `splits.sort((a, b) => a - b)`.  Insertion sort
computes the same list as any correct ascending sort of integers (equal
elements are indistinguishable). -/
def sortAsc (l : List Int) : List Int := l.foldr insertAsc []

/-- The split-set update of source `DiffMode.splitHunk` (lines 351–357): if
`line` is already a split it is removed; otherwise every existing split
strictly beyond `line` is shifted down the document by one (the new marker
occupies one line) and `line` is inserted, keeping the set sorted. -/
def toggleSplit (oldSplits : List Int) (line : Int) : List Int :=
  if line ∈ oldSplits then oldSplits.filter (fun x => x != line)
  else sortAsc ((oldSplits.map fun s => if s > line then s + 1 else s) ++ [line])

/-- Fragment encoding of a split set, `` `,splits=${splits.join(";")}` ``
restricted to the joined list (the rest of the fragment round-trips
unchanged), as consumed back by `provideDiff`/`applyHunkSplitting`. -/
def splitsToSpec (splits : List Int) : Option String :=
  some (strJoin ";" (splits.map renderInt))

/-- Number of `' '` and `'-'` lines (the old-side count of a hunk body range). -/
def cf (l : List String) : Nat :=
  (l.filter fun s =>
    match s.data with
    | ' ' :: _ => true
    | '-' :: _ => true
    | _ => false).length

/-- Number of `' '` and `'+'` lines (the new-side count of a hunk body range). -/
def ct (l : List String) : Nat :=
  (l.filter fun s =>
    match s.data with
    | ' ' :: _ => true
    | '+' :: _ => true
    | _ => false).length

/-- Hunk body chunks interleaved with split markers: the shape of a split
hunk's body right after `applyHunkSplitting` has spliced in the `"@#"`
markers. -/
def interleaveSplits : List (List String) → List String
  | [] => []
  | [c] => c
  | c :: cs => c ++ ["@#"] ++ interleaveSplits cs

/-- The sub-hunks the renumbering pass emits for one split hunk: each chunk
preceded by a recomputed header whose counts are the chunk's counts and whose
starts carry forward the previous chunk's starts plus counts.  The first
header keeps the original trailing text, synthesized ones have none. -/
def subHunksOut (a c : Nat) (rest : String) : List (List String) → List String
  | [] => []
  | ch :: r =>
    (renderHeader a (cf ch) c (ct ch) rest :: ch) ++ subHunksOut (a + cf ch) (c + ct ch) "" r

/-- One hunk of a diff as the splitter sees it: the non-header lines that
precede its header (file headers, stat lines, and the like), the raw header
line itself, and the body cut at the split points into chunks. -/
structure HunkBlock where
  pre : List String
  header : String
  chunks : List (List String)
  deriving Repr, DecidableEq

/-- The diff lines a list of hunk blocks denotes before renumbering: each
block contributes its preceding lines, its header, and its chunks
interleaved with `"@#"` split markers. -/
def hunkBlocksIn : List HunkBlock → List String
  | [] => []
  | b :: r => b.pre ++ b.header :: (interleaveSplits b.chunks ++ hunkBlocksIn r)

/-- What the renumbering pass makes of one block: if its header parses, the
recomputed sub-hunks; otherwise the block is left as it stands. -/
def blockOut (b : HunkBlock) : List String :=
  match matchHeader b.header with
  | some (a, c, rest) => subHunksOut a c rest b.chunks
  | none => b.header :: interleaveSplits b.chunks

/-- The diff lines a list of hunk blocks denotes after renumbering. -/
def hunkBlocksOut : List HunkBlock → List String
  | [] => []
  | b :: r => b.pre ++ blockOut b ++ hunkBlocksOut r

/-- A line at which the count walk of `fixHunkNumbering` stops: its first
character is none of `' '`, `'+'`, `'-'`, and it is not the split marker
`"@#"`. -/
def stopsBody (s : String) : Prop :=
  s.data.head? ≠ some ' ' ∧ s.data.head? ≠ some '+'
    ∧ s.data.head? ≠ some '-' ∧ s ≠ "@#"

instance (s : String) : Decidable (stopsBody s) := by
  unfold stopsBody
  infer_instance

/-! ## Parsing lemmas -/

/-- Some body line accepted for the side of `marker` is immediately followed
by a line starting with `'\'`. -/
def acceptedThenBackslash (marker : Char) : List String → Bool
  | [] => false
  | s :: rest =>
    (accepts marker s && strStartsWith ((rest.head?).getD "") "\\")
      || acceptedThenBackslash marker rest

theorem collectGo_fst (marker : Char) (l : List String) :
    ∀ lines lmap mn, (collectGo marker l lines lmap mn).1
      = lines ++ (l.filter (accepts marker)).map (strDrop · 1) := by
  induction l with
  | nil => intro lines lmap mn; simp [collectGo]
  | cons s rest ih =>
    intro lines lmap mn
    by_cases hs : accepts marker s
    · simp [collectGo, hs, ih]
    · simp [collectGo, hs, ih]

theorem collectGo_mn (marker : Char) (l : List String) :
    ∀ lines lmap mn, (collectGo marker l lines lmap mn).2.2
      = (mn || acceptedThenBackslash marker l) := by
  induction l with
  | nil => intro lines lmap mn; simp [collectGo, acceptedThenBackslash]
  | cons s rest ih =>
    intro lines lmap mn
    by_cases hs : accepts marker s
    · simp only [collectGo, hs, if_pos, acceptedThenBackslash, ih]
      cases hb : strStartsWith ((rest.head?).getD "") "\\" <;> cases mn <;> simp [hs, hb]
    · simp [collectGo, hs, acceptedThenBackslash, ih]

theorem splitOnChar_no_sep (c : Char) (cs : List Char) (h : c ∉ cs) :
    splitOnChar c cs = [cs] := by
  induction cs with
  | nil => rfl
  | cons x xs ih =>
    have hx : x ≠ c := fun he => h (he ▸ List.mem_cons_self x xs)
    have hxs : c ∉ xs := fun hm => h (List.mem_cons_of_mem x hm)
    simp [splitOnChar, hx, ih hxs]

theorem acceptedThenBackslash_iff (marker : Char) (l : List String) :
    acceptedThenBackslash marker l = true
      ↔ ∃ i, i < l.length ∧ accepts marker (l.getD i "") = true
          ∧ strStartsWith ((l.get? (i + 1)).getD "") "\\" = true := by
  induction l with
  | nil => simp [acceptedThenBackslash]
  | cons s rest ih =>
    simp only [acceptedThenBackslash, Bool.or_eq_true, Bool.and_eq_true, ih]
    constructor
    · rintro (⟨ha, hb⟩ | ⟨i, hi, ha, hb⟩)
      · refine ⟨0, by simp, by simpa using ha, ?_⟩
        simpa [List.get?_cons_succ, List.get?_zero, List.head?_eq_getElem?] using hb
      · exact ⟨i + 1, by simpa using hi, by simpa using ha, by simpa using hb⟩
    · rintro ⟨i, hi, ha, hb⟩
      cases i with
      | zero =>
        left
        exact ⟨by simpa using ha,
          by simpa [List.get?_cons_succ, List.get?_zero, List.head?_eq_getElem?] using hb⟩
      | succ j =>
        right
        exact ⟨j, by simpa using hi, by simpa using ha, by simpa using hb⟩

theorem bool_eq_false {b : Bool} (h : ¬ b = true) : b = false := by
  cases b
  · rfl
  · exact absurd rfl h

theorem scanForFrom_none_iff (d : List String) : ∀ line,
    scanForFrom d line = none
      ↔ ∀ i, i ≤ line → strStartsWith (d.getD i "") "--- " = false := by
  intro line
  induction line with
  | zero =>
    by_cases h : strStartsWith (d.getD 0 "") "--- " = true
    · simp only [scanForFrom, if_pos h]
      constructor
      · intro hc; cases hc
      · intro hall
        have := hall 0 (le_refl 0)
        rw [h] at this
        cases this
    · simp only [scanForFrom, if_neg h]
      constructor
      · intro _ i hi
        have hi0 : i = 0 := Nat.le_zero.mp hi
        subst hi0
        exact bool_eq_false h
      · intro _; trivial
  | succ n ih =>
    by_cases h : strStartsWith (d.getD (n + 1) "") "--- " = true
    · simp only [scanForFrom, if_pos h]
      constructor
      · intro hc; cases hc
      · intro hall
        have := hall (n + 1) (le_refl _)
        rw [h] at this
        cases this
    · simp only [scanForFrom, if_neg h]
      rw [ih]
      constructor
      · intro hall i hi
        rcases Nat.lt_or_ge i (n + 1) with hlt | hge
        · exact hall i (Nat.lt_succ_iff.mp hlt)
        · have : i = n + 1 := Nat.le_antisymm hi hge
          subst this
          exact bool_eq_false h
      · intro hall i hi
        exact hall i (Nat.le_succ_of_le hi)

theorem scanForFrom_some_iff (d : List String) : ∀ line i,
    scanForFrom d line = some i
      ↔ i ≤ line ∧ strStartsWith (d.getD i "") "--- " = true
          ∧ ∀ j, i < j → j ≤ line → strStartsWith (d.getD j "") "--- " = false := by
  intro line
  induction line with
  | zero =>
    intro i
    by_cases h : strStartsWith (d.getD 0 "") "--- " = true
    · simp only [scanForFrom, if_pos h]
      constructor
      · intro hc
        cases hc
        exact ⟨le_refl 0, h, fun j h1 h2 => absurd (Nat.lt_of_lt_of_le h1 h2) (lt_irrefl 0)⟩
      · rintro ⟨h1, h2, h3⟩
        have : i = 0 := Nat.le_zero.mp h1
        subst this; rfl
    · simp only [scanForFrom, if_neg h]
      constructor
      · intro hc; cases hc
      · rintro ⟨h1, h2, h3⟩
        have : i = 0 := Nat.le_zero.mp h1
        subst this
        exact absurd h2 h
  | succ n ih =>
    intro i
    by_cases h : strStartsWith (d.getD (n + 1) "") "--- " = true
    · simp only [scanForFrom, if_pos h]
      constructor
      · intro hc
        cases hc
        exact ⟨le_refl _, h, fun j h1 h2 => absurd (Nat.lt_of_lt_of_le h1 h2) (lt_irrefl _)⟩
      · rintro ⟨h1, h2, h3⟩
        rcases Nat.lt_or_ge i (n + 1) with hlt | hge
        · exact absurd h (by simpa using h3 (n + 1) hlt (le_refl _))
        · have : i = n + 1 := Nat.le_antisymm h1 hge
          subst this; rfl
    · simp only [scanForFrom, if_neg h]
      rw [ih]
      constructor
      · rintro ⟨h1, h2, h3⟩
        refine ⟨Nat.le_succ_of_le h1, h2, fun j hj1 hj2 => ?_⟩
        rcases Nat.lt_or_ge j (n + 1) with hlt | hge
        · exact h3 j hj1 (Nat.lt_succ_iff.mp hlt)
        · have : j = n + 1 := Nat.le_antisymm hj2 hge
          subst this
          exact bool_eq_false h
      · rintro ⟨h1, h2, h3⟩
        have hne : i ≠ n + 1 := by
          intro he; subst he; exact h h2
        exact ⟨Nat.lt_succ_iff.mp (Nat.lt_of_le_of_ne h1 hne), h2,
          fun j hj1 hj2 => h3 j hj1 (Nat.le_succ_of_le hj2)⟩

theorem findIdx_slash_append (a b : List Char) (ha : '/' ∉ a) :
    List.findIdx? (· = '/') (a ++ '/' :: b) = some a.length := by
  induction a with
  | nil => simp [List.findIdx?]
  | cons c cs ih =>
    have hc : (c = '/') = False := by
      simp only [eq_iff_iff, iff_false]
      intro he; exact ha (he ▸ List.mem_cons_self c cs)
    have hcs : '/' ∉ cs := fun hm => ha (List.mem_cons_of_mem c hm)
    simp only [List.cons_append, List.findIdx?_cons, hc, decide_False, if_false,
      List.findIdx?_succ, ih hcs, Option.map_some', List.length_cons]
    simp

theorem findIdx_no_slash (a : List Char) (ha : '/' ∉ a) :
    List.findIdx? (· = '/') a = none := by
  induction a with
  | nil => rfl
  | cons c cs ih =>
    have hc : (c = '/') = False := by
      simp only [eq_iff_iff, iff_false]
      intro he; exact ha (he ▸ List.mem_cons_self c cs)
    have hcs : '/' ∉ cs := fun hm => ha (List.mem_cons_of_mem c hm)
    simp [List.findIdx?_cons, hc, ih hcs]

/-! ## Locator lemmas -/

theorem matchesAtLine_neg (t : HunkText) (d : List String) (l : Int) (h : l < 0) :
    t.matchesAtLine d l = false := by
  simp [HunkText.matchesAtLine, h]

theorem matchesAtLine_bounds (t : HunkText) (d : List String) (l : Int)
    (h : t.matchesAtLine d l = true) :
    0 ≤ l ∧ l + t.text.length ≤ (d.length : Int) := by
  unfold HunkText.matchesAtLine at h
  split at h
  · cases h
  · next hc =>
    rw [Bool.or_eq_true, decide_eq_true_eq, decide_eq_true_eq] at hc
    push_neg at hc
    exact ⟨hc.1, hc.2⟩

theorem matchesAtLine_empty (t : HunkText) (d : List String) (l : Int)
    (ht : t.text = []) (h0 : 0 ≤ l) (hL : l ≤ (d.length : Int)) :
    t.matchesAtLine d l = true := by
  unfold HunkText.matchesAtLine
  rw [ht]
  have hc : ¬ (decide (l < 0) || decide (l + ([] : List String).length > (d.length : Int))) = true := by
    simp
    omega
  rw [if_neg hc]
  simp [List.isPrefixOf]

theorem findAux_sound (t : HunkText) (d : List String) (line : Int) :
    ∀ (fuel : Nat) (offs : Int), findAux t d line fuel offs ≠ -1 →
      t.matchesAtLine d (findAux t d line fuel offs) = true := by
  intro fuel
  induction fuel with
  | zero => intro offs h; exact absurd rfl h
  | succ f ih =>
    intro offs h
    simp only [findAux] at h ⊢
    by_cases h1 : line - offs < 0 ∧ line + offs ≥ (d.length : Int)
    · rw [if_pos h1] at h; exact absurd rfl h
    · rw [if_neg h1] at h ⊢
      by_cases h2 : t.matchesAtLine d (line - offs) = true
      · rw [if_pos h2] at h ⊢; exact h2
      · rw [if_neg h2] at h ⊢
        by_cases h3 : t.matchesAtLine d (line + offs) = true
        · rw [if_pos h3] at h ⊢; exact h3
        · rw [if_neg h3] at h ⊢; exact ih (offs + 1) h

theorem find_sound (t : HunkText) (d : List String) (h : t.find d ≠ -1) :
    t.matchesAtLine d (t.find d) = true := by
  simp only [HunkText.find] at h ⊢
  by_cases h0 : t.matchesAtLine d (min t.srcLine ((d.length : Int) - 1)) = true
  · rw [if_pos h0] at h ⊢; exact h0
  · rw [if_neg h0] at h ⊢; exact findAux_sound t d _ _ 1 h

theorem findAux_lt (t : HunkText) (d : List String) (line : Int)
    (hline : line ≤ (d.length : Int) - 1) :
    ∀ (fuel : Nat) (offs : Int), 1 ≤ offs → findAux t d line fuel offs ≠ -1 →
      findAux t d line fuel offs < (d.length : Int) := by
  intro fuel
  induction fuel with
  | zero => intro offs _ h; exact absurd rfl h
  | succ f ih =>
    intro offs hoffs h
    simp only [findAux] at h ⊢
    by_cases h1 : line - offs < 0 ∧ line + offs ≥ (d.length : Int)
    · rw [if_pos h1] at h; exact absurd rfl h
    · rw [if_neg h1] at h ⊢
      by_cases h2 : t.matchesAtLine d (line - offs) = true
      · rw [if_pos h2] at h ⊢
        omega
      · rw [if_neg h2] at h ⊢
        by_cases h3 : t.matchesAtLine d (line + offs) = true
        · rw [if_pos h3] at h ⊢
          have hb := matchesAtLine_bounds t d _ h3
          rcases Nat.eq_zero_or_pos t.text.length with hz | hp
          · by_contra hge
            push_neg at hge
            have he : line + offs = (d.length : Int) := by omega
            have hup : 0 ≤ line - offs := by
              by_contra hneg
              push_neg at hneg
              exact h1 ⟨hneg, by omega⟩
            have : t.matchesAtLine d (line - offs) = true := by
              refine matchesAtLine_empty t d _ (List.length_eq_zero.mp hz) hup (by omega)
            exact h2 this
          · omega
        · rw [if_neg h3] at h ⊢
          exact ih (offs + 1) (by omega) h

theorem find_lt (t : HunkText) (d : List String) (h : t.find d ≠ -1) :
    0 ≤ t.find d ∧ t.find d < (d.length : Int) := by
  have hs := find_sound t d h
  have hb := matchesAtLine_bounds t d _ hs
  refine ⟨hb.1, ?_⟩
  simp only [HunkText.find] at h ⊢
  by_cases h0 : t.matchesAtLine d (min t.srcLine ((d.length : Int) - 1)) = true
  · rw [if_pos h0] at h ⊢
    have := matchesAtLine_bounds t d _ h0
    omega
  · rw [if_neg h0] at h ⊢
    exact findAux_lt t d _ (by omega) _ 1 (le_refl 1) h

theorem findAux_complete (t : HunkText) (d : List String) (line : Int)
    (ht : 0 < t.text.length) :
    ∀ (fuel : Nat) (offs : Int), 1 ≤ offs → searchBound d line < (fuel : Int) + offs →
      findAux t d line fuel offs = -1 →
      ∀ l : Int, t.matchesAtLine d l = true → line - offs < l ∧ l < line + offs := by
  have hsb1 : line + 1 ≤ searchBound d line := le_max_left _ _
  have hsb2 : (d.length : Int) - line ≤ searchBound d line := le_max_right _ _
  intro fuel
  induction fuel with
  | zero =>
    intro offs _ hfuel _ l hl
    have hb := matchesAtLine_bounds t d l hl
    simp only [Nat.cast_zero] at hfuel
    omega
  | succ f ih =>
    intro offs hoffs hfuel heq l hl
    have hb := matchesAtLine_bounds t d l hl
    simp only [findAux] at heq
    by_cases h1 : line - offs < 0 ∧ line + offs ≥ (d.length : Int)
    · omega
    · rw [if_neg h1] at heq
      by_cases h2 : t.matchesAtLine d (line - offs) = true
      · rw [if_pos h2] at heq
        have := matchesAtLine_bounds t d _ h2
        omega
      · rw [if_neg h2] at heq
        by_cases h3 : t.matchesAtLine d (line + offs) = true
        · rw [if_pos h3] at heq
          have := matchesAtLine_bounds t d _ h3
          omega
        · rw [if_neg h3] at heq
          have hnext := ih (offs + 1) (by omega) (by push_cast at hfuel; omega) heq l hl
          have hne1 : l ≠ line - offs := fun he => h2 (he ▸ hl)
          have hne2 : l ≠ line + offs := fun he => h3 (he ▸ hl)
          omega

theorem find_complete (t : HunkText) (d : List String) (ht : 0 < t.text.length)
    (l : Int) (hl : t.matchesAtLine d l = true) : t.find d ≠ -1 := by
  intro hfind
  simp only [HunkText.find] at hfind
  by_cases h0 : t.matchesAtLine d (min t.srcLine ((d.length : Int) - 1)) = true
  · rw [if_pos h0] at hfind
    have := matchesAtLine_bounds t d _ h0
    omega
  · rw [if_neg h0] at hfind
    have hbound : searchBound d (min t.srcLine ((d.length : Int) - 1))
        < ((searchBound d (min t.srcLine ((d.length : Int) - 1))).toNat + 1 : Int) + 1 := by
      have := Int.self_le_toNat (searchBound d (min t.srcLine ((d.length : Int) - 1)))
      omega
    have := findAux_complete t d _ ht _ 1 (le_refl 1) hbound hfind l hl
    have : l = min t.srcLine ((d.length : Int) - 1) := by omega
    exact h0 (this ▸ hl)

theorem findAux_empty_down (t : HunkText) (d : List String) (line : Int)
    (ht : t.text = []) (hL : 0 < d.length) (hline : line < 0) :
    ∀ (fuel : Nat) (offs : Int), 1 ≤ offs → offs ≤ -line → -line - offs < (fuel : Int) →
      findAux t d line fuel offs = 0 := by
  intro fuel
  induction fuel with
  | zero =>
    intro offs h1 h2 h3
    simp only [Nat.cast_zero] at h3
    omega
  | succ f ih =>
    intro offs h1 h2 h3
    simp only [findAux]
    by_cases hcase : offs = -line
    · have hterm : ¬ (line - offs < 0 ∧ line + offs ≥ (d.length : Int)) := by
        intro hc
        omega
      rw [if_neg hterm]
      have hup : t.matchesAtLine d (line - offs) = false :=
        matchesAtLine_neg t d _ (by omega)
      rw [hup]
      simp only [Bool.false_eq_true, if_false]
      have hdown : t.matchesAtLine d (line + offs) = true := by
        refine matchesAtLine_empty t d _ ht (by omega) (by omega)
      rw [hdown]
      simp only [if_true]
      omega
    · have hlt : offs < -line := by omega
      have hterm : ¬ (line - offs < 0 ∧ line + offs ≥ (d.length : Int)) := by
        intro hc
        omega
      rw [if_neg hterm]
      have hup : t.matchesAtLine d (line - offs) = false :=
        matchesAtLine_neg t d _ (by omega)
      have hdown : t.matchesAtLine d (line + offs) = false :=
        matchesAtLine_neg t d _ (by omega)
      rw [hup, hdown]
      simp only [Bool.false_eq_true, if_false]
      refine ih (offs + 1) (by omega) (by omega) (by push_cast at h3; omega)

theorem findAux_nil (t : HunkText) (line : Int) (hline : line < 0) :
    ∀ (fuel : Nat) (offs : Int), 1 ≤ offs → findAux t [] line fuel offs = -1 := by
  intro fuel
  induction fuel with
  | zero => intro offs _; rfl
  | succ f ih =>
    intro offs h1
    simp only [findAux]
    by_cases hterm : line - offs < 0 ∧ line + offs ≥ ((([] : List String).length : Nat) : Int)
    · rw [if_pos hterm]
    · rw [if_neg hterm]
      have hdownneg : line + offs < 0 := by
        simp only [List.length_nil, Nat.cast_zero] at hterm
        omega
      have hup : t.matchesAtLine [] (line - offs) = false :=
        matchesAtLine_neg t [] _ (by omega)
      have hdown : t.matchesAtLine [] (line + offs) = false :=
        matchesAtLine_neg t [] _ hdownneg
      rw [hup, hdown]
      simp only [Bool.false_eq_true, if_false]
      exact ih (offs + 1) (by omega)

theorem find_nil (t : HunkText) : t.find [] = -1 := by
  simp only [HunkText.find]
  have hline : min t.srcLine ((([] : List String).length : Int) - 1) < 0 := by
    simp only [List.length_nil, Nat.cast_zero]
    omega
  rw [matchesAtLine_neg t [] _ hline]
  simp only [Bool.false_eq_true, if_false]
  exact findAux_nil t _ hline _ 1 (le_refl 1)

theorem find_empty_pos (t : HunkText) (d : List String) (ht : t.text = [])
    (hL : 0 < d.length) : t.find d ≠ -1 := by
  simp only [HunkText.find]
  by_cases h0 : 0 ≤ min t.srcLine ((d.length : Int) - 1)
  · have hm : t.matchesAtLine d (min t.srcLine ((d.length : Int) - 1)) = true := by
      refine matchesAtLine_empty t d _ ht h0 (by omega)
    rw [if_pos hm]
    omega
  · push_neg at h0
    rw [matchesAtLine_neg t d _ h0]
    simp only [Bool.false_eq_true, if_false]
    have hres : findAux t d (min t.srcLine ((d.length : Int) - 1))
        ((searchBound d (min t.srcLine ((d.length : Int) - 1))).toNat + 1) 1 = 0 := by
      refine findAux_empty_down t d _ ht hL h0 _ 1 (le_refl 1) (by omega) ?_
      have h1 : (d.length : Int) - min t.srcLine ((d.length : Int) - 1)
          ≤ searchBound d (min t.srcLine ((d.length : Int) - 1)) := le_max_right _ _
      have h2 := Int.self_le_toNat (searchBound d (min t.srcLine ((d.length : Int) - 1)))
      push_cast
      omega
    rw [hres]
    omega

/-! ## Line split/join lemmas -/

theorem intercalate_one (c : Char) (a : List Char) : List.intercalate [c] [a] = a := by
  simp [List.intercalate]

theorem intercalate_two (c : Char) (a b : List Char) (l : List (List Char)) :
    List.intercalate [c] (a :: b :: l) = a ++ c :: List.intercalate [c] (b :: l) := by
  simp [List.intercalate, List.intersperse]

theorem splitOnChar_ne_nil (c : Char) (l : List Char) : splitOnChar c l ≠ [] := by
  cases l with
  | nil => simp [splitOnChar]
  | cons x xs =>
    by_cases hx : x = c
    · simp [splitOnChar, hx]
    · simp only [splitOnChar, if_neg hx]
      cases splitOnChar c xs <;> simp

theorem splitOnChar_cons_ne (c x : Char) (xs : List Char) (hx : x ≠ c) :
    splitOnChar c (x :: xs)
      = (x :: (splitOnChar c xs).headD []) :: (splitOnChar c xs).tail := by
  cases h : splitOnChar c xs with
  | nil => exact absurd h (splitOnChar_ne_nil c xs)
  | cons p ps => simp [splitOnChar, hx, h]

theorem mem_splitOnChar_not_mem (c : Char) (l : List Char) :
    ∀ p ∈ splitOnChar c l, c ∉ p := by
  induction l with
  | nil =>
    intro p hp
    simp only [splitOnChar, List.mem_singleton] at hp
    subst hp
    simp
  | cons x xs ih =>
    intro p hp
    by_cases hx : x = c
    · have hs : splitOnChar c (x :: xs) = [] :: splitOnChar c xs := by
        simp [splitOnChar, hx]
      rw [hs] at hp
      rcases List.mem_cons.mp hp with rfl | hp
      · simp
      · exact ih p hp
    · rw [splitOnChar_cons_ne c x xs hx] at hp
      rcases List.mem_cons.mp hp with rfl | hp
      · intro hmem
        rcases List.mem_cons.mp hmem with rfl | hmem
        · exact hx rfl
        · cases hsp : splitOnChar c xs with
          | nil => exact absurd hsp (splitOnChar_ne_nil c xs)
          | cons q qs =>
            rw [hsp] at hmem
            exact ih q (hsp ▸ List.mem_cons_self q qs) (by simpa using hmem)
      · cases hsp : splitOnChar c xs with
        | nil => exact absurd hsp (splitOnChar_ne_nil c xs)
        | cons q qs =>
          rw [hsp] at hp
          exact ih p (hsp ▸ List.mem_cons_of_mem q (by simpa using hp))

theorem splitOnChar_append_cons (c : Char) (xs ys : List Char) (h : c ∉ xs) :
    splitOnChar c (xs ++ c :: ys) = xs :: splitOnChar c ys := by
  induction xs with
  | nil => simp [splitOnChar]
  | cons x xr ih =>
    have hx : x ≠ c := fun he => h (he ▸ List.mem_cons_self x xr)
    have hxr : c ∉ xr := fun hm => h (List.mem_cons_of_mem x hm)
    rw [List.cons_append, splitOnChar_cons_ne c x _ hx, ih hxr]
    simp

theorem splitOnChar_intercalate_cons (c : Char) (T : List (List Char)) (ys : List Char)
    (hT : T ≠ []) (hfree : ∀ p ∈ T, c ∉ p) :
    splitOnChar c (List.intercalate [c] T ++ c :: ys) = T ++ splitOnChar c ys := by
  induction T with
  | nil => exact absurd rfl hT
  | cons a T' ih =>
    cases T' with
    | nil =>
      rw [intercalate_one, splitOnChar_append_cons c a ys (hfree a (List.mem_cons_self a []))]
      rfl
    | cons b T'' =>
      rw [intercalate_two]
      have hassoc : (a ++ c :: List.intercalate [c] (b :: T'')) ++ c :: ys
          = a ++ c :: (List.intercalate [c] (b :: T'') ++ c :: ys) := by
        simp
      rw [hassoc, splitOnChar_append_cons c a _ (hfree a (List.mem_cons_self a _)),
        ih (by simp) (fun p hp => hfree p (List.mem_cons_of_mem a hp))]
      rfl

theorem splitOnChar_intercalate (c : Char) (T : List (List Char))
    (hT : T ≠ []) (hfree : ∀ p ∈ T, c ∉ p) :
    splitOnChar c (List.intercalate [c] T) = T := by
  induction T with
  | nil => exact absurd rfl hT
  | cons a T' ih =>
    cases T' with
    | nil =>
      rw [intercalate_one]
      exact splitOnChar_no_sep c a (hfree a (List.mem_cons_self a []))
    | cons b T'' =>
      rw [intercalate_two]
      have hinter : List.intercalate [c] (b :: T'') ≠ [] → True := fun _ => trivial
      rw [show a ++ c :: List.intercalate [c] (b :: T'')
          = a ++ c :: List.intercalate [c] (b :: T'') from rfl]
      rw [splitOnChar_append_cons c a _ (hfree a (List.mem_cons_self a _))]
      rw [ih (by simp) (fun p hp => hfree p (List.mem_cons_of_mem a hp))]

theorem intercalate_splitOnChar (c : Char) (l : List Char) :
    List.intercalate [c] (splitOnChar c l) = l := by
  induction l with
  | nil => simp [splitOnChar, intercalate_one]
  | cons x xs ih =>
    by_cases hx : x = c
    · have hs : splitOnChar c (x :: xs) = [] :: splitOnChar c xs := by
        simp [splitOnChar, hx]
      rw [hs]
      cases h : splitOnChar c xs with
      | nil => exact absurd h (splitOnChar_ne_nil c xs)
      | cons p ps =>
        rw [intercalate_two]
        rw [h] at ih
        rw [ih, List.nil_append, hx]
    · rw [splitOnChar_cons_ne c x xs hx]
      cases h : splitOnChar c xs with
      | nil => exact absurd h (splitOnChar_ne_nil c xs)
      | cons p ps =>
        rw [h] at ih
        simp only [List.headD_cons, List.tail_cons]
        cases ps with
        | nil =>
          rw [intercalate_one] at ih ⊢
          rw [← ih]
        | cons q qs =>
          rw [intercalate_two] at ih ⊢
          rw [List.cons_append, ih]

theorem flatten_prefix_split (c : Char) (P : List (List Char)) (rest : List Char)
    (hfree : ∀ p ∈ P, c ∉ p) :
    splitOnChar c ((P.map (· ++ [c])).flatten ++ rest) = P ++ splitOnChar c rest := by
  induction P with
  | nil => simp
  | cons p P' ih =>
    have hassoc : ((p :: P').map (· ++ [c])).flatten ++ rest
        = p ++ c :: ((P'.map (· ++ [c])).flatten ++ rest) := by
      simp
    rw [hassoc, splitOnChar_append_cons c p _ (hfree p (List.mem_cons_self p P')),
      ih (fun q hq => hfree q (List.mem_cons_of_mem p hq))]
    rfl

theorem intercalate_append_flat (c : Char) (P Q : List (List Char)) (hQ : Q ≠ []) :
    List.intercalate [c] (P ++ Q)
      = (P.map (· ++ [c])).flatten ++ List.intercalate [c] Q := by
  induction P with
  | nil => simp
  | cons p P' ih =>
    cases hPQ : P' ++ Q with
    | nil => exact absurd (List.append_eq_nil.mp hPQ).2 hQ
    | cons q qs =>
      have h1 : List.intercalate [c] ((p :: P') ++ Q)
          = p ++ c :: List.intercalate [c] (P' ++ Q) := by
        rw [List.cons_append, hPQ, intercalate_two]
      rw [h1, ih]
      simp

theorem docLines_free (doc : String) : ∀ s ∈ docLines doc, '\n' ∉ s.data := by
  intro s hs
  simp only [docLines, List.mem_map] at hs
  obtain ⟨p, hp, rfl⟩ := hs
  exact mem_splitOnChar_not_mem '\n' doc.data p hp

theorem map_mk_data (l : List String) : (l.map String.data).map String.mk = l := by
  induction l with
  | nil => rfl
  | cons s r ih => simp only [List.map_cons, ih]

theorem docLines_mk_intercalate (newL : List String) (h1 : newL ≠ [])
    (h2 : ∀ s ∈ newL, '\n' ∉ s.data) :
    docLines (String.mk (List.intercalate ['\n'] (newL.map String.data))) = newL := by
  simp only [docLines]
  rw [splitOnChar_intercalate '\n' (newL.map String.data)
      (by simpa using h1)
      (by intro p hp; obtain ⟨s, hs, rfl⟩ := List.mem_map.mp hp; exact h2 s hs)]
  exact map_mk_data newL

theorem editReplaceLines_as_join (x : String) (m len : Nat) (T : List String)
    (hT : T ≠ []) (hsuffix : m + len < (docLines x).length) :
    editReplaceLines x m len (strJoin "\n" T ++ "\n")
      = String.mk (List.intercalate ['\n']
          (((docLines x).take m ++ T ++ (docLines x).drop (m + len)).map String.data)) := by
  simp only [editReplaceLines]
  rw [if_pos hsuffix]
  congr 1
  have hS : (docLines x).drop (m + len) ≠ [] := by
    intro h
    have := congrArg List.length h
    simp only [List.length_drop, List.length_nil] at this
    omega
  have hSm : ((docLines x).drop (m + len)).map String.data ≠ [] := by
    simpa using hS
  have hTm : T.map String.data ≠ [] := by simpa using hT
  have hrepl : (strJoin "\n" T ++ "\n").data
      = List.intercalate ['\n'] (T.map String.data) ++ ['\n'] := by
    rw [String.data_append]
    rfl
  rw [hrepl]
  rw [List.map_append, List.map_append]
  conv_rhs => rw [List.append_assoc]
  rw [intercalate_append_flat '\n' ((docLines x).take m |>.map String.data)
    (T.map String.data ++ ((docLines x).drop (m + len)).map String.data)
    (by intro hc; exact hTm (List.append_eq_nil.mp hc).1)]
  rw [intercalate_append_flat '\n' (T.map String.data)
    (((docLines x).drop (m + len)).map String.data) hSm]
  have hjoin : ((T.map String.data).map (· ++ ['\n'])).flatten
      = List.intercalate ['\n'] (T.map String.data) ++ ['\n'] := by
    cases hTc : T.map String.data with
    | nil => exact absurd hTc hTm
    | cons a rest =>
      clear hTc
      induction rest generalizing a with
      | nil => simp [intercalate_one]
      | cons b rest' ihr =>
        rw [intercalate_two]
        simp only [List.map_cons, List.flatten_cons] at ihr ⊢
        rw [ihr b]
        simp
  rw [← hjoin]
  simp [List.append_assoc, Function.comp_def]

theorem lines_decomp_of_match (t : HunkText) (d : List String) (m : Nat)
    (h : t.matchesAtLine d (m : Int) = true) :
    d.drop m = t.text ++ d.drop (m + t.text.length)
    ∧ d.take m ++ t.text ++ d.drop (m + t.text.length) = d := by
  unfold HunkText.matchesAtLine at h
  split at h
  · cases h
  · simp only [Int.toNat_natCast] at h
    obtain ⟨rest, hrest⟩ := List.isPrefixOf_iff_prefix.mp h
    have hdd : d.drop (m + t.text.length) = rest := by
      have h1 : d.drop (m + t.text.length) = (d.drop m).drop t.text.length := by
        rw [List.drop_drop]
      rw [h1, ← hrest]
      exact List.drop_left' rfl
    constructor
    · rw [hdd, hrest]
    · rw [hdd, List.append_assoc, hrest]
      exact List.take_append_drop m d

theorem matchesAtLine_int_of_nat (t : HunkText) (d : List String)
    (hpos : 0 < t.text.length) (m : Nat)
    (hnat : ∀ k : Nat, k < d.length → t.matchesAtLine d (k : Int) = true → k = m) :
    ∀ l : Int, t.matchesAtLine d l = true → l = (m : Int) := by
  intro l hl
  have hb := matchesAtLine_bounds t d l hl
  have hlt : l < (d.length : Int) := by omega
  have hcast : l = ((l.toNat : Nat) : Int) := by omega
  rw [hcast] at hl ⊢
  have := hnat l.toNat (by omega) hl
  omega

theorem findAux_first_up (t : HunkText) (d : List String) (line dlt : Int)
    (hdlt : 1 ≤ dlt)
    (hmatch : t.matchesAtLine d (line - dlt) = true) :
    ∀ (fuel : Nat) (offs : Int), 1 ≤ offs → offs ≤ dlt →
      (∀ o : Int, offs ≤ o → o < dlt →
        t.matchesAtLine d (line - o) = false ∧ t.matchesAtLine d (line + o) = false) →
      dlt < (fuel : Int) + offs →
      findAux t d line fuel offs = line - dlt := by
  have hub := matchesAtLine_bounds t d _ hmatch
  intro fuel
  induction fuel with
  | zero =>
    intro offs h1 h2 _ hf
    simp only [Nat.cast_zero] at hf
    omega
  | succ f ih =>
    intro offs h1 h2 hno hf
    simp only [findAux]
    have hterm : ¬ (line - offs < 0 ∧ line + offs ≥ (d.length : Int)) := by
      intro hc
      omega
    rw [if_neg hterm]
    by_cases hcase : offs = dlt
    · subst hcase
      rw [if_pos hmatch]
    · have hlt : offs < dlt := by omega
      have hup := (hno offs (le_refl _) hlt).1
      have hdown := (hno offs (le_refl _) hlt).2
      rw [hup, hdown]
      simp only [Bool.false_eq_true, if_false]
      refine ih (offs + 1) (by omega) (by omega)
        (fun o ho1 ho2 => hno o (by omega) ho2) ?_
      push_cast at hf ⊢
      omega

theorem findAux_first_down (t : HunkText) (d : List String) (line dlt : Int)
    (hdlt : 1 ≤ dlt)
    (hupno : t.matchesAtLine d (line - dlt) = false)
    (hstop : ¬ (line - dlt < 0 ∧ line + dlt ≥ (d.length : Int)))
    (hmatch : t.matchesAtLine d (line + dlt) = true) :
    ∀ (fuel : Nat) (offs : Int), 1 ≤ offs → offs ≤ dlt →
      (∀ o : Int, offs ≤ o → o < dlt →
        t.matchesAtLine d (line - o) = false ∧ t.matchesAtLine d (line + o) = false) →
      dlt < (fuel : Int) + offs →
      findAux t d line fuel offs = line + dlt := by
  intro fuel
  induction fuel with
  | zero =>
    intro offs h1 h2 _ hf
    simp only [Nat.cast_zero] at hf
    omega
  | succ f ih =>
    intro offs h1 h2 hno hf
    simp only [findAux]
    have hterm : ¬ (line - offs < 0 ∧ line + offs ≥ (d.length : Int)) := by
      intro hc
      exact hstop ⟨by omega, by omega⟩
    rw [if_neg hterm]
    by_cases hcase : offs = dlt
    · subst hcase
      rw [hupno]
      simp only [Bool.false_eq_true, if_false]
      rw [if_pos hmatch]
    · have hlt : offs < dlt := by omega
      have hup := (hno offs (le_refl _) hlt).1
      have hdown := (hno offs (le_refl _) hlt).2
      rw [hup, hdown]
      simp only [Bool.false_eq_true, if_false]
      refine ih (offs + 1) (by omega) (by omega)
        (fun o ho1 ho2 => hno o (by omega) ho2) ?_
      push_cast at hf ⊢
      omega

/-! ## Claims -/

/-- C1.  Locator correctness for `HunkText.find`, writing `line₀` for the
clamped start `min srcLine (length - 1)`:
(i) if the block matches at `line₀` that line is returned;
(ii) otherwise, for increasing `dlt = 1, 2, …` the locator tests
`line₀ - dlt` then `line₀ + dlt` and returns the first line that matches
(provided the stop condition has not yet fired for the down probe);
(iii) `-1` is returned exactly when the block matches at no document line;
(iv) a non-`-1` result is a document line where the block matches;
(v) for a document built by placing any prefix of lines before `text` such
that the block matches only there, the locator returns the prefix length. -/
theorem spec_C1 (t : HunkText) (d : List String) :
    (t.matchesAtLine d (min t.srcLine ((d.length : Int) - 1)) = true →
      t.find d = min t.srcLine ((d.length : Int) - 1))
    ∧ (∀ dlt : Int, 1 ≤ dlt →
        t.matchesAtLine d (min t.srcLine ((d.length : Int) - 1)) = false →
        (∀ o : Int, 1 ≤ o → o < dlt →
          t.matchesAtLine d (min t.srcLine ((d.length : Int) - 1) - o) = false
          ∧ t.matchesAtLine d (min t.srcLine ((d.length : Int) - 1) + o) = false) →
        (t.matchesAtLine d (min t.srcLine ((d.length : Int) - 1) - dlt) = true →
          t.find d = min t.srcLine ((d.length : Int) - 1) - dlt)
        ∧ (t.matchesAtLine d (min t.srcLine ((d.length : Int) - 1) - dlt) = false →
            ¬(min t.srcLine ((d.length : Int) - 1) - dlt < 0
              ∧ min t.srcLine ((d.length : Int) - 1) + dlt ≥ (d.length : Int)) →
            t.matchesAtLine d (min t.srcLine ((d.length : Int) - 1) + dlt) = true →
            t.find d = min t.srcLine ((d.length : Int) - 1) + dlt))
    ∧ (t.find d = -1 ↔ ∀ l : Int, l < (d.length : Int) → t.matchesAtLine d l = false)
    ∧ (t.find d ≠ -1 →
        t.matchesAtLine d (t.find d) = true ∧ 0 ≤ t.find d ∧ t.find d < (d.length : Int))
    ∧ (∀ pre : List String, d = pre ++ t.text → t.text ≠ [] →
        (∀ l : Int, t.matchesAtLine d l = true → l = (pre.length : Int)) →
        t.find d = (pre.length : Int)) := by
  refine ⟨?_, ?_, ?_, ?_, ?_⟩
  · intro h
    simp only [HunkText.find]
    rw [if_pos h]
  · intro dlt hdlt h0 hno
    have hSB1 : min t.srcLine ((d.length : Int) - 1) + 1
        ≤ searchBound d (min t.srcLine ((d.length : Int) - 1)) := le_max_left _ _
    have hSB2 : (d.length : Int) - min t.srcLine ((d.length : Int) - 1)
        ≤ searchBound d (min t.srcLine ((d.length : Int) - 1)) := le_max_right _ _
    have hSBt := Int.self_le_toNat (searchBound d (min t.srcLine ((d.length : Int) - 1)))
    constructor
    · intro hm
      have hb := matchesAtLine_bounds t d _ hm
      simp only [HunkText.find]
      rw [h0]
      simp only [Bool.false_eq_true, if_false]
      refine findAux_first_up t d _ dlt hdlt hm _ 1 (le_refl 1) (by omega)
        (fun o ho1 ho2 => hno o ho1 ho2) ?_
      push_cast
      omega
    · intro hupno hstop hm
      have hb := matchesAtLine_bounds t d _ hm
      simp only [HunkText.find]
      rw [h0]
      simp only [Bool.false_eq_true, if_false]
      refine findAux_first_down t d _ dlt hdlt hupno hstop hm _ 1 (le_refl 1) (by omega)
        (fun o ho1 ho2 => hno o ho1 ho2) ?_
      push_cast
      omega
  · constructor
    · intro hfind l hlL
      by_contra hmatch
      rw [Bool.not_eq_false] at hmatch
      rcases Nat.eq_zero_or_pos t.text.length with hz | hp
      · have htext : t.text = [] := List.length_eq_zero.mp hz
        have hb := matchesAtLine_bounds t d l hmatch
        have hL : 0 < d.length := by
          rcases Nat.eq_zero_or_pos d.length with hd0 | hdp
          · rw [hd0] at hlL
            simp only [Nat.cast_zero] at hlL
            omega
          · exact hdp
        exact find_empty_pos t d htext hL hfind
      · exact find_complete t d hp l hmatch hfind
    · intro hall
      by_contra hfind
      have hs := find_sound t d hfind
      have hlt := find_lt t d hfind
      have hfalse := hall (t.find d) hlt.2
      rw [hfalse] at hs
      cases hs
  · intro h
    exact ⟨find_sound t d h, (find_lt t d h).1, (find_lt t d h).2⟩
  · intro pre hd htne huniq
    subst hd
    have hlen : 0 < t.text.length := by
      cases ht : t.text with
      | nil => exact absurd ht htne
      | cons a l => simp [ht]
    have hm : t.matchesAtLine (pre ++ t.text) (pre.length : Int) = true := by
      unfold HunkText.matchesAtLine
      have hc : ¬ (decide ((pre.length : Int) < 0)
          || decide ((pre.length : Int) + t.text.length
              > (((pre ++ t.text).length : Nat) : Int))) = true := by
        simp only [Bool.or_eq_true, decide_eq_true_eq, List.length_append]
        push_cast
        omega
      rw [if_neg hc]
      simp only [Int.toNat_natCast, List.drop_left]
      rw [List.isPrefixOf_iff_prefix]
    have hne := find_complete t (pre ++ t.text) hlen _ hm
    have hs := find_sound t (pre ++ t.text) hne
    exact huniq _ hs

/-- Witness for C1 at a concrete input: the block `["x"]` (recorded start 0)
placed after two unrelated lines is found at line 2. -/
theorem spec_C1_witness :
    HunkText.find ⟨0, ["x"], [], false⟩ ["a", "b", "x"] = 2 := by
  have h := (spec_C1 ⟨0, ["x"], [], false⟩ ["a", "b", "x"]).2.2.2.2 ["a", "b"] rfl
    (by decide) ?_
  · simpa using h
  · intro l hl
    have hb := matchesAtLine_bounds _ _ _ hl
    simp only [List.length_cons, List.length_singleton] at hb
    have hcase : l = 0 ∨ l = 1 ∨ l = 2 := by
      push_cast at hb
      omega
    rcases hcase with rfl | rfl | rfl
    · exact absurd hl (by decide)
    · exact absurd hl (by decide)
    · rfl

/-- C2.  Count invariant of hunk-side parsing: for every list of raw hunk
body lines and every range spec (side marker `marker`, remainder `restCs`)
whose declared count parses to `n`, `HunkText.fromSpec` returns a `HunkText`
exactly when the number of body lines whose prefix is the selected marker or
`' '` equals `n`; otherwise it returns `none`. -/
theorem spec_C2 (hunkLines : List String) (marker : Char) (restCs : List Char) (n : Int)
    (hm : marker = '-' ∨ marker = '+')
    (hn : jsParseInt (((splitOnChar ',' restCs).get? 1).getD ['1']) = some n) :
    (HunkText.fromSpec hunkLines (String.mk (marker :: restCs))).isSome
      ↔ ((hunkLines.filter (accepts marker)).length : Int) = n := by
  have hcoll : (collect marker hunkLines).1
      = (hunkLines.filter (accepts marker)).map (strDrop · 1) :=
    collectGo_fst marker hunkLines [] [] false
  simp only [HunkText.fromSpec, if_pos hm, hn, hcoll, List.length_map]
  split
  next heq => simp [heq]
  next hne => simp; omega

/-- Witness for C2: a side declaring count 2 over a body contributing a
single `-` line fails to parse. -/
theorem spec_C2_witness : HunkText.fromSpec ["-a"] (String.mk ('-' :: "1,2".data)) = none := by
  have h := spec_C2 ["-a"] '-' "1,2".data 2 (Or.inl rfl) (by decide)
  cases heq : HunkText.fromSpec ["-a"] (String.mk ('-' :: "1,2".data)) with
  | none => rfl
  | some t =>
    exact absurd (h.mp (by simp [heq])) (by decide)

/-- C10.  Omitted count defaults to 1: a range spec with no comma (such as
`-12`) parses successfully exactly when exactly one body line belongs to the
side, and the resulting `srcLine` is the parsed 1-based start minus 1. -/
theorem spec_C10 (hunkLines : List String) (marker : Char) (lineCs : List Char) (s : Int)
    (hm : marker = '-' ∨ marker = '+')
    (hnc : ',' ∉ lineCs)
    (hp : jsParseInt lineCs = some s) :
    ((HunkText.fromSpec hunkLines (String.mk (marker :: lineCs))).isSome
      ↔ (hunkLines.filter (accepts marker)).length = 1)
    ∧ ∀ t, HunkText.fromSpec hunkLines (String.mk (marker :: lineCs)) = some t
        → t.srcLine = s - 1 := by
  have hcoll : (collect marker hunkLines).1
      = (hunkLines.filter (accepts marker)).map (strDrop · 1) :=
    collectGo_fst marker hunkLines [] [] false
  have hsplit : splitOnChar ',' lineCs = [lineCs] := splitOnChar_no_sep ',' lineCs hnc
  have hone : jsParseInt ((([lineCs] : List (List Char)).get? 1).getD ['1']) = some 1 := rfl
  constructor
  · simp only [HunkText.fromSpec, if_pos hm, hsplit, hone, hcoll, List.length_map]
    split
    next heq => simp; omega
    next hne => simp; omega
  · intro t ht
    simp only [HunkText.fromSpec, if_pos hm, hsplit, hone, hp] at ht
    by_cases hc : (1 : Int) = ((collect marker hunkLines).1.length : Int)
    · rw [if_pos hc] at ht
      cases ht
      simp [hp]
    · rw [if_neg hc] at ht
      exact absurd ht (by simp)

/-- Witness for C10: `-12` over a single accepted body line parses, with
`srcLine = 11`. -/
theorem spec_C10_witness :
    (HunkText.fromSpec [" x"] (String.mk ('-' :: "12".data))).isSome = true
    ∧ ∀ t, HunkText.fromSpec [" x"] (String.mk ('-' :: "12".data)) = some t
        → t.srcLine = 11 := by
  have h := spec_C10 [" x"] '-' "12".data 12 (Or.inl rfl) (by decide) (by decide)
  exact ⟨h.1.mpr (by decide), fun t ht => h.2 t ht⟩

/-- C9 (amended).  The `missingNewline` flag produced by `HunkText.fromSpec`
is true exactly when SOME body line accepted for the side (not necessarily
the last one) is immediately followed by a line starting with `'\'`.  The
original claim — that only a `'\'` after the LAST accepted line sets the
flag — is refuted by `spec_C9_cex`. -/
theorem spec_C9 (hunkLines : List String) (marker : Char) (restCs : List Char) (t : HunkText)
    (hm : marker = '-' ∨ marker = '+')
    (hsome : HunkText.fromSpec hunkLines (String.mk (marker :: restCs)) = some t) :
    t.missingNewline = true
      ↔ ∃ i, i < hunkLines.length ∧ accepts marker (hunkLines.getD i "") = true
          ∧ strStartsWith ((hunkLines.get? (i + 1)).getD "") "\\" = true := by
  have hmn : t.missingNewline = acceptedThenBackslash marker hunkLines := by
    have h2 := collectGo_mn marker hunkLines [] [] false
    simp only [HunkText.fromSpec, if_pos hm] at hsome
    rcases hcase : jsParseInt (((splitOnChar ',' restCs).get? 1).getD ['1']) with _ | n
    · rw [hcase] at hsome
      exact absurd hsome (by simp)
    · rw [hcase] at hsome
      dsimp only at hsome
      by_cases hc : n = ((collect marker hunkLines).1.length : Int)
      · rw [if_pos hc] at hsome
        cases hsome
        simpa [collect] using h2
      · rw [if_neg hc] at hsome
        exact absurd hsome (by simp)
  rw [hmn]
  exact acceptedThenBackslash_iff marker hunkLines

/-- Counterexample for C9 as stated: in the body `[" a", "\x", " b"]` with
side spec `-1,2`, parsing succeeds (two accepted lines, `" a"` and `" b"`)
and the `'\'` line follows the NON-final accepted line `" a"`; the final
line `" b"` is the last accepted line and is followed by nothing (index 3 is
out of range), yet `missingNewline` comes out `true` — the claim as stated
requires `false` here. -/
theorem spec_C9_cex :
    (HunkText.fromSpec [" a", "\\x", " b"] (String.mk ('-' :: "1,2".data))).map
        HunkText.missingNewline = some true
    ∧ accepts '-' " b" = true
    ∧ ([" a", "\\x", " b"].get? 3) = none
    ∧ strStartsWith (([" a", "\\x", " b"].get? 3).getD "") "\\" = false := by
  decide

/-- Witness for C9 (amended) at a concrete input: the flag is true because
the accepted line `" a"` (index 0) is followed by a `'\'` line. -/
theorem spec_C9_witness :
    ∃ t, HunkText.fromSpec [" a", "\\x", " b"] (String.mk ('-' :: "1,2".data)) = some t
        ∧ (t.missingNewline = true
            ↔ ∃ i, i < ([" a", "\\x", " b"] : List String).length
                ∧ accepts '-' ([" a", "\\x", " b"].getD i "") = true
                ∧ strStartsWith (([" a", "\\x", " b"].get? (i + 1)).getD "") "\\" = true) := by
  refine ⟨⟨0, ["a", "b"], [0, 1, 1], true⟩, by decide, ?_⟩
  exact spec_C9 [" a", "\\x", " b"] '-' "1,2".data _ (Or.inl rfl) (by decide)

/-- C7.  Side-swap equivalence: `doApplyHunk` with `reverse = true` (the
Revert command) computes exactly the same document-and-message result as
`doApplyHunk` with `reverse = false` (Apply) on the hunk with `fromText` and
`toText` exchanged; and `stageOrUnstageHunk` with `stage = false` (Unstage)
computes exactly the same result as with `stage = true` (Stage) on the
swapped hunk, against the same index blob text. -/
theorem spec_C7 :
    (∀ (h : Hunk) (doc : String), doApplyHunk true h doc = doApplyHunk false h.swap doc)
    ∧ (∀ (h : Hunk) (index : String),
        stageOrUnstageHunk false h index = stageOrUnstageHunk true h.swap index) :=
  ⟨fun _ _ => rfl, fun _ _ => rfl⟩

/-- C3.  Apply failure signaling and atomicity: when `fromText` is not
located in the document, Apply leaves the document exactly as it was, reports
"already applied" exactly when `toText` is located, reports "failed to find
text to patch" exactly when `toText` is not located either, and never reports
success. -/
theorem spec_C3 (h : Hunk) (doc : String)
    (hnf : h.fromText.find (docLines doc) < 0) :
    (doApplyHunk false h doc).1 = doc
    ∧ ((doApplyHunk false h doc).2 = PatchMsg.alreadyApplied
        ↔ h.toText.find (docLines doc) ≠ -1)
    ∧ ((doApplyHunk false h doc).2 = PatchMsg.notFound
        ↔ h.toText.find (docLines doc) = -1)
    ∧ (doApplyHunk false h doc).2 ≠ PatchMsg.ok := by
  by_cases hto : h.toText.find (docLines doc) = -1
  · simp [doApplyHunk, hnf, hto]
  · simp [doApplyHunk, hnf, hto]

/-- Witness for C3 at a concrete hunk and document: `fromText` (`zzz`) is
absent, `toText` (`b`) is present, so the document is unchanged and "already
applied" is reported. -/
theorem spec_C3_witness :
    (doApplyHunk false ⟨0, ⟨0, ["zzz"], [0], false⟩, ⟨0, ["b"], [0], false⟩, 2⟩ "a\nb").1 = "a\nb"
    ∧ (doApplyHunk false ⟨0, ⟨0, ["zzz"], [0], false⟩, ⟨0, ["b"], [0], false⟩, 2⟩ "a\nb").2
        = PatchMsg.alreadyApplied := by
  have h := spec_C3 ⟨0, ⟨0, ["zzz"], [0], false⟩, ⟨0, ["b"], [0], false⟩, 2⟩ "a\nb" (by decide)
  exact ⟨h.1, h.2.1.mpr (by decide)⟩

/-- C8 (amended).  `DiffHeader` parsing scans upward to the nearest `"--- "`
line, returns nothing when no such line exists or the following line does not
start with `"+++ "`, and strips each path by discarding everything up to and
including the first `'/'` of the text after the four-character marker (the
whole remainder when there is no `'/'` at all) — EXCEPT that for an absolute
stored path (beginning with `'/'`) the full header line, four-character
marker included, is kept (`return path` in the source), not just the stored
path.  The original claim ("the path is kept unstripped") is refuted by
`spec_C8_cex`. -/
theorem spec_C8 (d : List String) (line : Nat) :
    (DiffHeader.fromLine d line = none
      ↔ (∀ i, i ≤ line → strStartsWith (d.getD i "") "--- " = false)
        ∨ ∃ i, i ≤ line ∧ strStartsWith (d.getD i "") "--- " = true
            ∧ (∀ j, i < j → j ≤ line → strStartsWith (d.getD j "") "--- " = false)
            ∧ strStartsWith ((d.get? (i + 1)).getD "") "+++ " = false)
    ∧ (∀ i, i ≤ line → strStartsWith (d.getD i "") "--- " = true →
        (∀ j, i < j → j ≤ line → strStartsWith (d.getD j "") "--- " = false) →
        ∀ toStr, d.get? (i + 1) = some toStr →
          strStartsWith toStr "+++ " = true →
          DiffHeader.fromLine d line = some ⟨stripPath (d.getD i ""), stripPath toStr⟩)
    ∧ (∀ m a b : String, m.data.length = 4 → a.data ≠ [] → '/' ∉ a.data →
        stripPath (String.mk (m.data ++ a.data ++ '/' :: b.data)) = b)
    ∧ (∀ m s : String, m.data.length = 4 → '/' ∉ s.data →
        stripPath (String.mk (m.data ++ s.data)) = s)
    ∧ (∀ m b : String, m.data.length = 4 →
        stripPath (String.mk (m.data ++ '/' :: b.data)) = String.mk (m.data ++ '/' :: b.data)) := by
  refine ⟨?_, ?_, ?_, ?_, ?_⟩
  · rcases hscan : scanForFrom d line with _ | i
    · simp only [DiffHeader.fromLine, hscan]
      simp only [true_iff]
      exact Or.inl (fun i hi => ((scanForFrom_none_iff d line).mp hscan) i hi)
    · have hprops := (scanForFrom_some_iff d line i).mp hscan
      rcases hget : d.get? (i + 1) with _ | toStr
      · simp only [DiffHeader.fromLine, hscan, hget]
        simp only [true_iff]
        refine Or.inr ⟨i, hprops.1, hprops.2.1, hprops.2.2, ?_⟩
        rw [hget]
        decide
      · by_cases hpp : strStartsWith toStr "+++ " = true
        · simp only [DiffHeader.fromLine, hscan, hget, if_pos hpp]
          constructor
          · intro hc; cases hc
          · rintro (hall | ⟨i', h1, h2, h3, h4⟩)
            · rw [hall i hprops.1] at hprops
              cases hprops.2.1
            · have hii : i' = i := by
                rcases Nat.lt_trichotomy i' i with hlt | heq | hgt
                · rw [h3 i hlt hprops.1] at hprops
                  cases hprops.2.1
                · exact heq
                · rw [hprops.2.2 i' hgt h1] at h2
                  cases h2
              subst hii
              rw [hget] at h4
              simp only [Option.getD_some] at h4
              rw [hpp] at h4
              cases h4
        · simp only [DiffHeader.fromLine, hscan, hget, if_neg hpp]
          simp only [true_iff]
          refine Or.inr ⟨i, hprops.1, hprops.2.1, hprops.2.2, ?_⟩
          rw [hget]
          simpa using bool_eq_false hpp
  · intro i hi hs hmax toStr hget hpp
    have hscan : scanForFrom d line = some i :=
      (scanForFrom_some_iff d line i).mpr ⟨hi, hs, hmax⟩
    simp only [DiffHeader.fromLine, hscan, hget, if_pos hpp]
  · intro m a b hm ha hnos
    have hdrop : strDrop (String.mk (m.data ++ a.data ++ '/' :: b.data)) 4
        = String.mk (a.data ++ '/' :: b.data) := by
      simp only [strDrop, List.append_assoc]
      rw [← hm, List.drop_left]
    have hns : strStartsWith (String.mk (a.data ++ '/' :: b.data)) "/" = false := by
      rcases hcase : a.data with _ | ⟨c, rest⟩
      · exact absurd hcase ha
      · have hc : c ≠ '/' := by
          intro he; subst he; exact hnos (hcase ▸ List.mem_cons_self _ _)
        simp [strStartsWith, List.isPrefixOf, String.data, hcase]
        intro he; exact absurd he.symm hc
    have hidx : idxOfSlash (String.mk (a.data ++ '/' :: b.data)) = (a.data.length : Int) := by
      simp only [idxOfSlash, String.data]
      rw [findIdx_slash_append a.data b.data hnos]
    simp only [stripPath, hdrop, hns, Bool.not_false, if_pos, hidx]
    have harith : ((a.data.length : Int) + 1).toNat = a.data.length + 1 := by omega
    rw [harith]
    have hsplit : a.data ++ '/' :: b.data = (a.data ++ ['/']) ++ b.data := by
      simp
    simp only [strDrop, String.data, hsplit]
    have hlen : (a.data ++ ['/']).length = a.data.length + 1 := by simp
    rw [← hlen, List.drop_left]
  · intro m s hm hnos
    have hdrop : strDrop (String.mk (m.data ++ s.data)) 4 = String.mk s.data := by
      simp only [strDrop, String.data]
      rw [← hm, List.drop_left]
    have hns : strStartsWith (String.mk s.data) "/" = false := by
      rcases hcase : s.data with _ | ⟨c, rest⟩
      · decide
      · have hc : c ≠ '/' := by
          intro he; subst he; exact hnos (hcase ▸ List.mem_cons_self _ _)
        simp [strStartsWith, List.isPrefixOf, String.data, hcase]
        intro he; exact absurd he.symm hc
    have hidx : idxOfSlash (String.mk s.data) = -1 := by
      simp only [idxOfSlash, String.data]
      rw [findIdx_no_slash s.data hnos]
    simp only [stripPath, hdrop, hns, Bool.not_false, if_pos, hidx]
    norm_num
    simp [strDrop]
  · intro m b hm
    have hdrop : strDrop (String.mk (m.data ++ '/' :: b.data)) 4
        = String.mk ('/' :: b.data) := by
      simp only [strDrop, String.data]
      rw [← hm, List.drop_left]
    have hys : strStartsWith (String.mk ('/' :: b.data)) "/" = true := by
      simp [strStartsWith, List.isPrefixOf, String.data]
    simp only [stripPath, hdrop, hys, Bool.not_true, Bool.false_eq_true, if_false]

/-- Counterexample for C8 as stated: with an absolute stored path the source
keeps the WHOLE header line, marker included; the claim's reading (the stored
path kept unstripped, captured by `stripPathSpec`) would give `/a` and `/b`. -/
theorem spec_C8_cex :
    DiffHeader.fromLine ["--- /a", "+++ /b"] 0 = some ⟨"--- /a", "+++ /b"⟩
    ∧ stripPathSpec "--- /a" = "/a"
    ∧ stripPathSpec "+++ /b" = "/b"
    ∧ ("--- /a" : String) ≠ "/a" ∧ ("+++ /b" : String) ≠ "/b" := by
  refine ⟨?_, by decide, by decide, by decide, by decide⟩
  decide

/-- Witness for C8 at a concrete document: the nearest `"--- "` line is found
scanning upward, the `"+++ "` line follows, and the `a/`-style prefixes are
stripped. -/
theorem spec_C8_witness :
    DiffHeader.fromLine ["--- a/f.txt", "+++ b/f.txt", "@@ -1,1 +1,1 @@"] 2
      = some ⟨stripPath "--- a/f.txt", stripPath "+++ b/f.txt"⟩ := by
  refine (spec_C8 ["--- a/f.txt", "+++ b/f.txt", "@@ -1,1 +1,1 @@"] 2).2.1 0 (by omega)
    (by decide) ?_ "+++ b/f.txt" (by decide) (by decide)
  intro j h1 h2
  have : j = 1 ∨ j = 2 := by omega
  rcases this with rfl | rfl <;> decide

/-- Counterexample for C4 as stated: for the spec's own example hunk
(context `one`, delete `two`, add `TWO`, context `three`; no `\` markers)
and the target document
`"one\ntwo\nthree"` WITHOUT a trailing newline, `fromText` is located
(at line 0), yet Apply rewrites the text with a trailing `"\n"`
(per `toText.missingNewline = false`) and Revert keeps it, so Apply followed
by Revert yields `"one\ntwo\nthree\n"` — the trailing-newline state is not
restored. -/
theorem spec_C4_cex :
    HunkText.find ⟨0, ["one", "two", "three"], [0, 1, 2, 2], false⟩
        (docLines "one\ntwo\nthree") = 0
    ∧ (doApplyHunk true
        ⟨2, ⟨0, ["one", "two", "three"], [0, 1, 2, 2], false⟩,
            ⟨0, ["one", "TWO", "three"], [0, 1, 1, 2], false⟩, 5⟩
        (doApplyHunk false
          ⟨2, ⟨0, ["one", "two", "three"], [0, 1, 2, 2], false⟩,
              ⟨0, ["one", "TWO", "three"], [0, 1, 1, 2], false⟩, 5⟩ "one\ntwo\nthree").1).1
      = "one\ntwo\nthree\n"
    ∧ ("one\ntwo\nthree\n" : String) ≠ "one\ntwo\nthree" := by
  exact ⟨by decide, by decide, by decide⟩

/-- C4 (amended).  Apply then Revert is the identity for an interior patch:
for every hunk and document in which `fromText.text` is located at line `m`,
provided (a) neither side carries the no-newline flag, (b) both sides are
nonempty, (c) the match does not extend to the document's last line, (d) the
replacement lines contain no embedded newline, and (e) after the edit
`toText.text` matches only at line `m`, Apply succeeds, Revert succeeds, and
the reverted document is character-identical to the original (trailing
newline included).  The unamended claim — identity for EVERY document where
`fromText` is located — fails on trailing-newline mismatch
(`spec_C4_cex`). -/
theorem spec_C4 (h : Hunk) (doc : String) (m : Nat)
    (hf : h.fromText.find (docLines doc) = (m : Int))
    (hmn1 : h.fromText.missingNewline = false)
    (hmn2 : h.toText.missingNewline = false)
    (hfne : h.fromText.text ≠ [])
    (htne : h.toText.text ≠ [])
    (hint : m + h.fromText.text.length < (docLines doc).length)
    (hclean : ∀ s ∈ h.toText.text, '\n' ∉ s.data)
    (huniq : ∀ l : Int, h.toText.matchesAtLine
        ((docLines doc).take m ++ h.toText.text
          ++ (docLines doc).drop (m + h.fromText.text.length)) l = true → l = (m : Int)) :
    (doApplyHunk false h doc).2 = PatchMsg.ok
    ∧ (doApplyHunk true h (doApplyHunk false h doc).1).2 = PatchMsg.ok
    ∧ (doApplyHunk true h (doApplyHunk false h doc).1).1 = doc := by
  have hfpos : 0 < h.fromText.text.length := List.length_pos.mpr hfne
  have htpos : 0 < h.toText.text.length := List.length_pos.mpr htne
  have hmle : m ≤ (docLines doc).length := by omega
  -- the apply step
  have hcond2 : (h.toText.missingNewline || decide (h.toText.text.length = 0)) = false := by
    rw [hmn2]
    simp only [Bool.false_or, decide_eq_false_iff_not]
    omega
  have happly : doApplyHunk false h doc
      = (editReplaceLines doc m h.fromText.text.length
          (strJoin "\n" h.toText.text ++ "\n"), PatchMsg.ok) := by
    simp only [doApplyHunk, Bool.false_eq_true, if_false, hf]
    rw [if_neg (by omega : ¬ ((m : Int) < 0))]
    simp only [hcond2, Bool.false_eq_true, if_false, Int.toNat_natCast]
  have hmatch : h.fromText.matchesAtLine (docLines doc) (m : Int) = true := by
    have hne : h.fromText.find (docLines doc) ≠ -1 := by
      rw [hf]; omega
    have hs := find_sound h.fromText (docLines doc) hne
    rw [hf] at hs
    exact hs
  have hdecomp := lines_decomp_of_match h.fromText (docLines doc) m hmatch
  have hLlines : docLines (editReplaceLines doc m h.fromText.text.length
        (strJoin "\n" h.toText.text ++ "\n"))
      = (docLines doc).take m ++ h.toText.text
        ++ (docLines doc).drop (m + h.fromText.text.length) := by
    rw [editReplaceLines_as_join doc m _ h.toText.text htne hint]
    apply docLines_mk_intercalate
    · intro hc
      have h1 := List.append_eq_nil.mp hc
      exact htne (List.append_eq_nil.mp h1.1).2
    · intro s hs
      rcases List.mem_append.mp hs with hs1 | hs2
      · rcases List.mem_append.mp hs1 with hta | htb
        · exact docLines_free doc s (List.mem_of_mem_take hta)
        · exact hclean s htb
      · exact docLines_free doc s (List.mem_of_mem_drop hs2)
  have htakelen : ((docLines doc).take m).length = m := by
    rw [List.length_take]
    omega
  have hdroplen : 0 < ((docLines doc).drop (m + h.fromText.text.length)).length := by
    rw [List.length_drop]
    omega
  have hLlen : ((docLines doc).take m ++ h.toText.text
      ++ (docLines doc).drop (m + h.fromText.text.length)).length
      = m + h.toText.text.length
        + ((docLines doc).length - (m + h.fromText.text.length)) := by
    simp only [List.length_append, htakelen, List.length_drop]
  -- toText matches the edited lines at m
  have hm' : h.toText.matchesAtLine
      ((docLines doc).take m ++ h.toText.text
        ++ (docLines doc).drop (m + h.fromText.text.length)) (m : Int) = true := by
    unfold HunkText.matchesAtLine
    have hc : ¬ ((decide ((m : Int) < 0)
        || decide ((m : Int) + h.toText.text.length
            > (((docLines doc).take m ++ h.toText.text
              ++ (docLines doc).drop (m + h.fromText.text.length)).length : Int))) = true) := by
      simp only [Bool.or_eq_true, decide_eq_true_eq, hLlen]
      push_cast
      omega
    rw [if_neg hc]
    simp only [Int.toNat_natCast]
    rw [List.append_assoc, List.drop_left' htakelen]
    exact List.isPrefixOf_iff_prefix.mpr (List.prefix_append _ _)
  have hfind' : h.toText.find
      ((docLines doc).take m ++ h.toText.text
        ++ (docLines doc).drop (m + h.fromText.text.length)) = (m : Int) := by
    have hne' := find_complete h.toText _ htpos _ hm'
    exact huniq _ (find_sound h.toText _ hne')
  -- the revert step
  have hcond1 : (h.fromText.missingNewline || decide (h.fromText.text.length = 0)) = false := by
    rw [hmn1]
    simp only [Bool.false_or, decide_eq_false_iff_not]
    omega
  have hrevert : doApplyHunk true h (doApplyHunk false h doc).1
      = (editReplaceLines (doApplyHunk false h doc).1 m h.toText.text.length
          (strJoin "\n" h.fromText.text ++ "\n"), PatchMsg.ok) := by
    rw [happly]
    simp only [doApplyHunk, if_true, hLlines, hfind']
    rw [if_neg (by omega : ¬ ((m : Int) < 0))]
    simp only [hcond1, Bool.false_eq_true, if_false, Int.toNat_natCast]
  refine ⟨by rw [happly], by rw [hrevert], ?_⟩
  rw [hrevert, happly]
  have hint' : m + h.toText.text.length
      < (docLines (editReplaceLines doc m h.fromText.text.length
          (strJoin "\n" h.toText.text ++ "\n"))).length := by
    rw [hLlines, hLlen]
    omega
  rw [editReplaceLines_as_join _ m _ h.fromText.text hfne hint']
  rw [hLlines]
  have htake' : ((docLines doc).take m ++ h.toText.text
      ++ (docLines doc).drop (m + h.fromText.text.length)).take m = (docLines doc).take m := by
    rw [List.append_assoc]
    exact List.take_left' htakelen
  have hdrop' : ((docLines doc).take m ++ h.toText.text
      ++ (docLines doc).drop (m + h.fromText.text.length)).drop (m + h.toText.text.length)
      = (docLines doc).drop (m + h.fromText.text.length) := by
    apply List.drop_left'
    simp only [List.length_append, htakelen]
  rw [htake', hdrop']
  rw [hdecomp.2]
  have hmapdata : (docLines doc).map String.data = splitOnChar '\n' doc.data := by
    simp only [docLines, List.map_map]
    have : (String.data ∘ String.mk) = id := rfl
    rw [this, List.map_id]
  rw [hmapdata, intercalate_splitOnChar]

/-- Witness for C4 (amended) at the spec's example with a trailing newline:
applying then reverting the `two → TWO` hunk on `"one\ntwo\nthree\n"`
restores the document exactly. -/
theorem spec_C4_witness :
    (doApplyHunk true
      ⟨2, ⟨0, ["one", "two", "three"], [0, 1, 2, 2], false⟩,
          ⟨0, ["one", "TWO", "three"], [0, 1, 1, 2], false⟩, 5⟩
      (doApplyHunk false
        ⟨2, ⟨0, ["one", "two", "three"], [0, 1, 2, 2], false⟩,
            ⟨0, ["one", "TWO", "three"], [0, 1, 1, 2], false⟩, 5⟩ "one\ntwo\nthree\n").1).1
      = "one\ntwo\nthree\n" := by
  refine (spec_C4
    ⟨2, ⟨0, ["one", "two", "three"], [0, 1, 2, 2], false⟩,
        ⟨0, ["one", "TWO", "three"], [0, 1, 1, 2], false⟩, 5⟩
    "one\ntwo\nthree\n" 0 (by decide) rfl rfl (by decide) (by decide) (by decide)
    (by decide) ?_).2.2
  exact matchesAtLine_int_of_nat _ _ (by decide) 0 (by decide)

theorem insertAsc_of_head_le (a : Int) (T : List Int)
    (hT : ∀ y ∈ T.head?, a ≤ y) : insertAsc a T = a :: T := by
  cases T with
  | nil => rfl
  | cons y r =>
    simp only [insertAsc, if_pos (hT y rfl)]

theorem sortAsc_of_sorted (T : List Int) (hc : List.Chain' (· ≤ ·) T) :
    sortAsc T = T := by
  induction T with
  | nil => rfl
  | cons a T' ih =>
    rw [List.chain'_cons'] at hc
    have hstep : sortAsc (a :: T') = insertAsc a (sortAsc T') := rfl
    rw [hstep, ih hc.2]
    exact insertAsc_of_head_le a T' hc.1

/-- Counterexample for C5 as stated: with the existing split set `[5]`,
toggling a split at line 2 twice leaves the set as `[6]`, not `[5]`
(adding shifts later offsets up by one, removal does not shift them back),
and the re-rendered diff places the marker one line later. -/
theorem spec_C5_cex :
    toggleSplit (toggleSplit [5] 2) 2 = [6]
    ∧ applyHunkSplitting "l0\nl1\nl2\nl3\nl4\nl5\nl6\nl7"
        (splitsToSpec (toggleSplit (toggleSplit [5] 2) 2))
      ≠ applyHunkSplitting "l0\nl1\nl2\nl3\nl4\nl5\nl6\nl7" (splitsToSpec [5]) := by
  exact ⟨by decide, by decide⟩

/-- C5 (amended).  Split round-trip: the Splitter with an empty split set
(absent or empty spec) returns the diff byte-identically; and toggling a
split at `x` twice returns to the original split set — hence to byte-identical
diff text — PROVIDED the existing (sorted) split set has no offset beyond
`x`.  When an offset `s > x` exists, the add step shifts it to `s + 1` and
the removal does not shift it back (`spec_C5_cex`). -/
theorem spec_C5 :
    (∀ diff : String, applyHunkSplitting diff none = diff)
    ∧ (∀ diff : String, applyHunkSplitting diff (some "") = diff)
    ∧ (∀ (S : List Int) (x : Int) (diff : String),
        List.Chain' (· ≤ ·) S → (∀ s ∈ S, s < x) →
        toggleSplit (toggleSplit S x) x = S
        ∧ applyHunkSplitting diff (splitsToSpec (toggleSplit (toggleSplit S x) x))
            = applyHunkSplitting diff (splitsToSpec S)) := by
  refine ⟨fun diff => rfl, fun diff => rfl, ?_⟩
  intro S x diff hsort hlt
  have hxnot : x ∉ S := fun hm => absurd (hlt x hm) (lt_irrefl x)
  have hmap : ∀ (T : List Int), (∀ s ∈ T, s < x) →
      T.map (fun s => if s > x then s + 1 else s) = T := by
    intro T
    induction T with
    | nil => intro _; rfl
    | cons a T' ih =>
      intro hT
      have ha : ¬ a > x := by
        have := hT a (List.mem_cons_self a T')
        omega
      simp only [List.map_cons, if_neg ha,
        ih (fun s hs => hT s (List.mem_cons_of_mem a hs))]
  have hchain : List.Chain' (· ≤ ·) (S ++ [x]) := by
    rw [List.chain'_append]
    refine ⟨hsort, List.chain'_singleton x, ?_⟩
    intro a ha y hy
    simp only [List.head?_cons, Option.mem_def, Option.some.injEq] at hy
    subst hy
    exact le_of_lt (hlt a (List.mem_of_mem_getLast? ha))
  have htt : toggleSplit (toggleSplit S x) x = S := by
    unfold toggleSplit
    rw [if_neg hxnot, hmap S hlt, sortAsc_of_sorted (S ++ [x]) hchain]
    rw [if_pos (by simp : x ∈ S ++ [x])]
    rw [List.filter_append]
    have h1 : S.filter (fun s => s != x) = S :=
      List.filter_eq_self.mpr (fun a ha => by
        have := hlt a ha
        simp only [bne_iff_ne, ne_eq, decide_eq_true_eq]
        omega)
    have h2 : ([x] : List Int).filter (fun s => s != x) = [] := by simp
    rw [h1, h2, List.append_nil]
  exact ⟨htt, by rw [htt]⟩

/-- Witness for C5's toggle law at a concrete input: existing split set `[1]`
(sorted, all offsets below 5), toggling at 5 twice is the identity and the
rendered diff is unchanged. -/
theorem spec_C5_witness :
    toggleSplit (toggleSplit [1] 5) 5 = [1]
    ∧ applyHunkSplitting "a\nb\nc" (splitsToSpec (toggleSplit (toggleSplit [1] 5) 5))
        = applyHunkSplitting "a\nb\nc" (splitsToSpec [1]) := by
  exact spec_C5.2.2 [1] 5 "a\nb\nc" (List.chain'_singleton 1) (by decide)

/-! ## Decimal rendering lemmas -/

theorem digitChar_spec : ∀ d : Nat, d < 10 →
    digitVal (digitChar d) = d ∧ (digitChar d).isDigit = true := by decide

theorem digitsToNat_append_one (ds : List Char) (ch : Char) :
    digitsToNat (ds ++ [ch]) = 10 * digitsToNat ds + digitVal ch := by
  simp [digitsToNat, List.foldl_append]

theorem natDigitsAux_spec : ∀ (fuel n : Nat), n < fuel →
    digitsToNat (natDigitsAux fuel n) = n
    ∧ natDigitsAux fuel n ≠ []
    ∧ ∀ ch ∈ natDigitsAux fuel n, ch.isDigit = true := by
  intro fuel
  induction fuel with
  | zero => intro n hn; omega
  | succ f ih =>
    intro n hn
    by_cases h10 : n < 10
    · simp only [natDigitsAux, if_pos h10]
      refine ⟨?_, by simp, ?_⟩
      · simp [digitsToNat, (digitChar_spec n h10).1]
      · intro ch hch
        simp only [List.mem_singleton] at hch
        subst hch
        exact (digitChar_spec n h10).2
    · simp only [natDigitsAux, if_neg h10]
      have hdiv : n / 10 < f := by omega
      obtain ⟨ih1, ih2, ih3⟩ := ih (n / 10) hdiv
      refine ⟨?_, by simp, ?_⟩
      · rw [digitsToNat_append_one, ih1, (digitChar_spec (n % 10) (by omega)).1]
        omega
      · intro ch hch
        rcases List.mem_append.mp hch with hch | hch
        · exact ih3 ch hch
        · simp only [List.mem_singleton] at hch
          subst hch
          exact (digitChar_spec (n % 10) (by omega)).2

theorem digitsToNat_natDigits (n : Nat) : digitsToNat (natDigits n) = n :=
  (natDigitsAux_spec (n + 1) n (by omega)).1

theorem natDigits_ne_nil (n : Nat) : natDigits n ≠ [] :=
  (natDigitsAux_spec (n + 1) n (by omega)).2.1

theorem natDigits_all_digit (n : Nat) : ∀ ch ∈ natDigits n, ch.isDigit = true :=
  (natDigitsAux_spec (n + 1) n (by omega)).2.2

/-- Any fuel above `n` computes the same digits (the rendering is
fuel-independent). -/
theorem natDigitsAux_fuel_irrelevant : ∀ (n f₁ f₂ : Nat), n < f₁ → n < f₂ →
    natDigitsAux f₁ n = natDigitsAux f₂ n := by
  intro n
  induction n using Nat.strong_induction_on with
  | _ n ih =>
    intro f₁ f₂ h1 h2
    cases f₁ with
    | zero => omega
    | succ g₁ =>
      cases f₂ with
      | zero => omega
      | succ g₂ =>
        by_cases h10 : n < 10
        · simp [natDigitsAux, h10]
        · simp only [natDigitsAux, if_neg h10]
          rw [ih (n / 10) (by omega) g₁ g₂ (by omega) (by omega)]

theorem spanDigits_digits_append (ds r : List Char)
    (hds : ∀ ch ∈ ds, ch.isDigit = true)
    (hr : ∀ ch, r.head? = some ch → ch.isDigit = false) :
    spanDigits (ds ++ r) = (ds, r) := by
  induction ds with
  | nil =>
    cases r with
    | nil => rfl
    | cons ch cs =>
      have := hr ch rfl
      simp [spanDigits, this]
  | cons d ds' ih =>
    have hd := hds d (List.mem_cons_self d ds')
    simp only [List.cons_append, spanDigits, hd, if_true]
    rw [show ds'.append r = ds' ++ r from rfl,
      ih (fun ch hch => hds ch (List.mem_cons_of_mem d hch))]

theorem matchHeader_render (a f c t : Nat) (rest : String) :
    matchHeader (renderHeader a f c t rest) = some (a, c, rest) := by
  obtain ⟨ca, csa, hda⟩ : ∃ ca csa, natDigits a = ca :: csa := by
    cases h : natDigits a with
    | nil => exact absurd h (natDigits_ne_nil a)
    | cons x xs => exact ⟨x, xs, rfl⟩
  obtain ⟨cc, csc, hdc⟩ : ∃ cc csc, natDigits c = cc :: csc := by
    cases h : natDigits c with
    | nil => exact absurd h (natDigits_ne_nil c)
    | cons x xs => exact ⟨x, xs, rfl⟩
  have hspan : ∀ (n : Nat) (r : List Char), (∀ ch, r.head? = some ch → ch.isDigit = false) →
      spanDigits (natDigits n ++ r) = (natDigits n, r) :=
    fun n r hr => spanDigits_digits_append _ _ (natDigits_all_digit n) hr
  unfold matchHeader renderHeader
  simp only [List.cons_append, List.append_assoc]
  rw [hspan a _ (by intro ch h; injection h with h2; subst h2; decide)]
  rw [hda]
  dsimp only
  rw [if_pos rfl]
  rw [hspan f _ (by intro ch h; injection h with h2; subst h2; decide)]
  dsimp only
  rw [if_pos (show (' ' : Char) = ' ' ∧ ('+' : Char) = '+' from ⟨rfl, rfl⟩)]
  rw [hspan c _ (by intro ch h; injection h with h2; subst h2; decide)]
  rw [hdc]
  dsimp only
  rw [if_pos rfl]
  rw [hspan t _ (by intro ch h; injection h with h2; subst h2; decide)]
  dsimp only
  rw [if_pos (show (' ' : Char) = ' ' ∧ ('@' : Char) = '@' ∧ ('@' : Char) = '@' from
    ⟨rfl, rfl, rfl⟩)]
  rw [← hda, ← hdc, digitsToNat_natDigits, digitsToNat_natDigits]

/-! ## Renumbering pass lemmas -/

theorem walkBody_cons_space (fS tS : Nat) (tl : List Char) (rest : List String) (f t : Nat) :
    walkBody fS tS (String.mk (' ' :: tl) :: rest) f t
      = ((walkBody fS tS rest (f + 1) (t + 1)).1,
         (walkBody fS tS rest (f + 1) (t + 1)).2.1,
         String.mk (' ' :: tl) :: (walkBody fS tS rest (f + 1) (t + 1)).2.2) := rfl

theorem walkBody_cons_plus (fS tS : Nat) (tl : List Char) (rest : List String) (f t : Nat) :
    walkBody fS tS (String.mk ('+' :: tl) :: rest) f t
      = ((walkBody fS tS rest f (t + 1)).1,
         (walkBody fS tS rest f (t + 1)).2.1,
         String.mk ('+' :: tl) :: (walkBody fS tS rest f (t + 1)).2.2) := rfl

theorem walkBody_cons_minus (fS tS : Nat) (tl : List Char) (rest : List String) (f t : Nat) :
    walkBody fS tS (String.mk ('-' :: tl) :: rest) f t
      = ((walkBody fS tS rest (f + 1) t).1,
         (walkBody fS tS rest (f + 1) t).2.1,
         String.mk ('-' :: tl) :: (walkBody fS tS rest (f + 1) t).2.2) := rfl

theorem cf_cons_space (tl : List Char) (l : List String) :
    cf (String.mk (' ' :: tl) :: l) = cf l + 1 := by
  simp [cf, List.filter_cons]

theorem cf_cons_plus (tl : List Char) (l : List String) :
    cf (String.mk ('+' :: tl) :: l) = cf l := by
  simp [cf, List.filter_cons]

theorem cf_cons_minus (tl : List Char) (l : List String) :
    cf (String.mk ('-' :: tl) :: l) = cf l + 1 := by
  simp [cf, List.filter_cons]

theorem ct_cons_space (tl : List Char) (l : List String) :
    ct (String.mk (' ' :: tl) :: l) = ct l + 1 := by
  simp [ct, List.filter_cons]

theorem ct_cons_plus (tl : List Char) (l : List String) :
    ct (String.mk ('+' :: tl) :: l) = ct l + 1 := by
  simp [ct, List.filter_cons]

theorem ct_cons_minus (tl : List Char) (l : List String) :
    ct (String.mk ('-' :: tl) :: l) = ct l := by
  simp [ct, List.filter_cons]

theorem walkBody_chunk (fS tS : Nat) (ch : List String)
    (hch : ∀ s ∈ ch, s.data.head? = some ' '
      ∨ s.data.head? = some '+' ∨ s.data.head? = some '-') :
    ∀ (tail : List String) (f t : Nat),
      walkBody fS tS (ch ++ tail) f t
        = ((walkBody fS tS tail (f + cf ch) (t + ct ch)).1,
           (walkBody fS tS tail (f + cf ch) (t + ct ch)).2.1,
           ch ++ (walkBody fS tS tail (f + cf ch) (t + ct ch)).2.2) := by
  induction ch with
  | nil =>
    intro tail f t
    simp [cf, ct]
  | cons s ch' ih =>
    intro tail f t
    obtain ⟨sl⟩ := s
    have ihs := ih (fun x hx => hch x (List.mem_cons_of_mem _ hx))
    rcases hch ⟨sl⟩ (List.mem_cons_self _ _) with hh | hh | hh
    · cases sl with
      | nil => cases hh
      | cons chr tl =>
        injection hh with hch1
        subst hch1
        rw [List.cons_append, walkBody_cons_space, ihs tail (f + 1) (t + 1),
          cf_cons_space, ct_cons_space,
          show f + (cf ch' + 1) = f + 1 + cf ch' from by omega,
          show t + (ct ch' + 1) = t + 1 + ct ch' from by omega, List.cons_append]
    · cases sl with
      | nil => cases hh
      | cons chr tl =>
        injection hh with hch1
        subst hch1
        rw [List.cons_append, walkBody_cons_plus, ihs tail f (t + 1),
          cf_cons_plus, ct_cons_plus,
          show t + (ct ch' + 1) = t + 1 + ct ch' from by omega, List.cons_append]
    · cases sl with
      | nil => cases hh
      | cons chr tl =>
        injection hh with hch1
        subst hch1
        rw [List.cons_append, walkBody_cons_minus, ihs tail (f + 1) t,
          cf_cons_minus, ct_cons_minus,
          show f + (cf ch' + 1) = f + 1 + cf ch' from by omega, List.cons_append]

theorem walkBody_marker (fS tS : Nat) (rest : List String) (f t : Nat) :
    walkBody fS tS ("@#" :: rest) f t
      = (f, t, renderHeader (fS + f) 0 (tS + t) 0 "" :: rest) := rfl

theorem walkBody_stop (fS tS : Nat) (s : String) (rest : List String) (f t : Nat)
    (hhead : ∀ ch, s.data.head? = some ch → ch ≠ ' ' ∧ ch ≠ '+' ∧ ch ≠ '-')
    (hne : s ≠ "@#") :
    walkBody fS tS (s :: rest) f t = (f, t, s :: rest) := by
  unfold walkBody
  split
  · next heq => exact absurd (by rw [heq]; rfl) (hhead ' ' · |>.elim (fun h _ => h rfl))
  · next heq =>
    have := (hhead '+' (by rw [heq]; rfl)).2.1
    exact absurd rfl this
  · next heq =>
    have := (hhead '-' (by rw [heq]; rfl)).2.2
    exact absurd rfl this
  · rw [if_neg hne]
  · rfl

theorem walkBody_tail (fS tS : Nat) (T : List String) (f t : Nat)
    (hT : ∀ s, T.head? = some s →
      (∀ ch, s.data.head? = some ch → ch ≠ ' ' ∧ ch ≠ '+' ∧ ch ≠ '-') ∧ s ≠ "@#") :
    walkBody fS tS T f t = (f, t, T) := by
  cases T with
  | nil => rfl
  | cons s T' =>
    exact walkBody_stop fS tS s T' f t (hT s rfl).1 (hT s rfl).2

theorem renumberFrom_skip_one (fuel : Nat) (lines : List String) (i : Nat) (s : String)
    (hget : lines.get? i = some s) (hns : strStartsWith s "@@" = false) :
    renumberFrom (fuel + 1) lines i = renumberFrom fuel lines (i + 1) := by
  rw [List.get?_eq_getElem?] at hget
  simp [renumberFrom, hget, hns]

theorem renumberFrom_skip (k : Nat) : ∀ (lines : List String) (i fuel : Nat),
    (∀ j, j < k → ∃ s, lines.get? (i + j) = some s ∧ strStartsWith s "@@" = false) →
    renumberFrom (k + fuel) lines i = renumberFrom fuel lines (i + k) := by
  induction k with
  | zero =>
    intro lines i fuel _
    simp
  | succ k' ih =>
    intro lines i fuel h
    obtain ⟨s, hs1, hs2⟩ := h 0 (by omega)
    rw [show k' + 1 + fuel = (k' + fuel) + 1 from by omega]
    rw [renumberFrom_skip_one (k' + fuel) lines i s (by simpa using hs1) hs2]
    rw [ih lines (i + 1) fuel (fun j hj => by
      obtain ⟨s', h1, h2⟩ := h (j + 1) (by omega)
      exact ⟨s', by rw [show i + 1 + j = i + (j + 1) from by omega]; exact h1, h2⟩)]
    congr 1
    omega

theorem renumberFrom_header (fuel : Nat) (lines : List String) (i : Nat) (H : String)
    (hget : lines.get? i = some H) (hs : strStartsWith H "@@" = true) :
    renumberFrom (fuel + 1) lines i = renumberFrom fuel (fixHunk lines i) (i + 1) := by
  rw [List.get?_eq_getElem?] at hget
  simp [renumberFrom, hget, hs]

theorem matchHeader_starts (H : String) (x : Nat × Nat × String)
    (h : matchHeader H = some x) : strStartsWith H "@@" = true := by
  unfold matchHeader at h
  split at h
  · next r0 heq =>
    simp [strStartsWith, heq, List.isPrefixOf]
  · cases h

theorem fixHunk_at (A : List String) (H : String) (R : List String) (a c : Nat) (rest : String)
    (hH : matchHeader H = some (a, c, rest)) :
    fixHunk (A ++ H :: R) A.length
      = A ++ renderHeader a (walkBody a c R 0 0).1 c (walkBody a c R 0 0).2.1 rest
          :: (walkBody a c R 0 0).2.2 := by
  unfold fixHunk
  have hget : (A ++ H :: R).get? A.length = some H := by
    rw [List.get?_append_right (le_refl _)]
    simp
  rw [hget]
  dsimp only
  rw [hH]
  dsimp only
  have hdrop : (A ++ H :: R).drop (A.length + 1) = R := by
    rw [show A ++ H :: R = (A ++ [H]) ++ R from by simp]
    exact List.drop_left' (by simp)
  have htake : (A ++ H :: R).take A.length = A := List.take_left' rfl
  rw [hdrop, htake]
  simp

/-- The element at index `A.length + 1 + j` of `A ++ x :: (B ++ C)` for
`j < B.length + C.length` lies in `B ++ C`. -/
theorem get_after_header (A : List String) (x : String) (B : List String) (j : Nat) :
    (A ++ x :: B).get? (A.length + 1 + j) = B.get? j := by
  rw [show A ++ x :: B = (A ++ [x]) ++ B from by simp]
  rw [List.get?_append_right (by simp)]
  congr 1
  simp

/-- One split hunk is renumbered correctly: starting the pass at the header
of a hunk whose body is the chunks of `cs` interleaved with `"@#"` markers,
with a tail `T` whose first line (if any) stops the count walk, the pass
rewrites each emitted sub-header with its own chunk's counts and
carried-forward starts and then continues right after the hunk with the
remaining fuel. -/
theorem renumber_hunk : ∀ (cs : List (List String)), cs ≠ [] →
    ∀ (A : List String) (a c : Nat) (rest : String) (H : String) (T : List String)
      (fuelT : Nat),
    matchHeader H = some (a, c, rest) →
    (∀ ch ∈ cs, ∀ s ∈ ch, s.data.head? = some ' '
      ∨ s.data.head? = some '+' ∨ s.data.head? = some '-') →
    (∀ s, T.head? = some s →
      (∀ chr, s.data.head? = some chr → chr ≠ ' ' ∧ chr ≠ '+' ∧ chr ≠ '-')
      ∧ s ≠ "@#") →
    renumberFrom (1 + (interleaveSplits cs).length + fuelT)
        (A ++ H :: (interleaveSplits cs ++ T)) A.length
      = renumberFrom fuelT (A ++ subHunksOut a c rest cs ++ T)
          (A.length + (subHunksOut a c rest cs).length) := by
  intro cs
  induction cs with
  | nil => intro h; exact absurd rfl h
  | cons ch cs' ih =>
    intro _ A a c rest H T fuelT hH hchunks hTstop
    have hch : ∀ s ∈ ch, s.data.head? = some ' '
        ∨ s.data.head? = some '+' ∨ s.data.head? = some '-' :=
      hchunks ch (List.mem_cons_self _ _)
    have hchne : ∀ s ∈ ch, strStartsWith s "@@" = false := by
      intro s hs
      rcases hch s hs with hh | hh | hh <;>
        (obtain ⟨sl⟩ := s
         cases sl with
         | nil => cases hh
         | cons chr tl =>
           injection hh with hc1
           subst hc1
           rfl)
    have hgetH : ∀ (R : List String), (A ++ H :: R).get? A.length = some H := by
      intro R
      rw [List.get?_append_right (le_refl _)]
      simp
    cases cs' with
    | nil =>
      have hwalk : walkBody a c (ch ++ T) 0 0 = (cf ch, ct ch, ch ++ T) := by
        rw [walkBody_chunk a c ch hch T 0 0, walkBody_tail a c T _ _ hTstop]
        simp
      have hfix := fixHunk_at A H (ch ++ T) a c rest hH
      rw [hwalk] at hfix
      have hil : interleaveSplits [ch] = ch := rfl
      rw [hil]
      rw [show 1 + ch.length + fuelT = (ch.length + fuelT) + 1 from by omega]
      rw [renumberFrom_header (ch.length + fuelT) _ A.length H (hgetH _)
        (matchHeader_starts H _ hH)]
      rw [hfix]
      rw [renumberFrom_skip ch.length
        (A ++ renderHeader a (cf ch) c (ct ch) rest :: (ch ++ T)) (A.length + 1) fuelT
        (by
          intro j hj
          obtain ⟨s, hs⟩ : ∃ s, ch.get? j = some s := ⟨ch.get ⟨j, hj⟩, List.get?_eq_get hj⟩
          refine ⟨s, ?_, hchne s (List.get?_mem hs)⟩
          rw [get_after_header, List.get?_append hj]
          exact hs)]
      have hls : A ++ renderHeader a (cf ch) c (ct ch) rest :: (ch ++ T)
          = A ++ subHunksOut a c rest [ch] ++ T := by
        simp [subHunksOut]
      have hlen : A.length + 1 + ch.length
          = A.length + (subHunksOut a c rest [ch]).length := by
        simp only [subHunksOut, List.append_nil, List.length_append, List.length_cons]
        omega
      rw [hls, hlen]
    | cons ch2 cs'' =>
      have hil : interleaveSplits (ch :: ch2 :: cs'')
          = ch ++ "@#" :: interleaveSplits (ch2 :: cs'') := by
        rw [show interleaveSplits (ch :: ch2 :: cs'')
            = ch ++ ["@#"] ++ interleaveSplits (ch2 :: cs'') from rfl]
        simp
      have hwalk : walkBody a c (ch ++ "@#" :: (interleaveSplits (ch2 :: cs'') ++ T)) 0 0
          = (cf ch, ct ch,
             ch ++ renderHeader (a + cf ch) 0 (c + ct ch) 0 ""
               :: (interleaveSplits (ch2 :: cs'') ++ T)) := by
        rw [walkBody_chunk a c ch hch _ 0 0, walkBody_marker]
        simp
      have hfix := fixHunk_at A H (ch ++ "@#" :: (interleaveSplits (ch2 :: cs'') ++ T))
        a c rest hH
      rw [hwalk] at hfix
      rw [hil]
      have hlen1 : 1 + (ch ++ "@#" :: interleaveSplits (ch2 :: cs'')).length + fuelT
          = (ch.length + (1 + (interleaveSplits (ch2 :: cs'')).length + fuelT)) + 1 := by
        simp only [List.length_append, List.length_cons]
        omega
      have hassoc1 : (ch ++ "@#" :: interleaveSplits (ch2 :: cs'')) ++ T
          = ch ++ "@#" :: (interleaveSplits (ch2 :: cs'') ++ T) := by
        simp
      rw [hassoc1, hlen1]
      rw [renumberFrom_header _ _ A.length H (hgetH _) (matchHeader_starts H _ hH)]
      rw [hfix]
      rw [renumberFrom_skip ch.length
        (A ++ renderHeader a (cf ch) c (ct ch) rest
          :: (ch ++ renderHeader (a + cf ch) 0 (c + ct ch) 0 ""
            :: (interleaveSplits (ch2 :: cs'') ++ T))) (A.length + 1)
        (1 + (interleaveSplits (ch2 :: cs'')).length + fuelT)
        (by
          intro j hj
          obtain ⟨s, hs⟩ : ∃ s, ch.get? j = some s := ⟨ch.get ⟨j, hj⟩, List.get?_eq_get hj⟩
          refine ⟨s, ?_, hchne s (List.get?_mem hs)⟩
          rw [get_after_header, List.get?_append hj]
          exact hs)]
      have hreassoc : A ++ renderHeader a (cf ch) c (ct ch) rest
          :: (ch ++ renderHeader (a + cf ch) 0 (c + ct ch) 0 ""
            :: (interleaveSplits (ch2 :: cs'') ++ T))
          = (A ++ renderHeader a (cf ch) c (ct ch) rest :: ch)
            ++ renderHeader (a + cf ch) 0 (c + ct ch) 0 ""
              :: (interleaveSplits (ch2 :: cs'') ++ T) := by
        simp
      rw [hreassoc]
      have hidx : A.length + 1 + ch.length
          = (A ++ renderHeader a (cf ch) c (ct ch) rest :: ch).length := by
        simp only [List.length_append, List.length_cons]
        omega
      rw [hidx]
      rw [ih (by simp) (A ++ renderHeader a (cf ch) c (ct ch) rest :: ch)
        (a + cf ch) (c + ct ch) "" (renderHeader (a + cf ch) 0 (c + ct ch) 0 "") T fuelT
        (matchHeader_render _ _ _ _ _)
        (fun chx hchx => hchunks chx (List.mem_cons_of_mem _ hchx)) hTstop]
      have hls : (A ++ renderHeader a (cf ch) c (ct ch) rest :: ch)
            ++ subHunksOut (a + cf ch) (c + ct ch) "" (ch2 :: cs'') ++ T
          = A ++ subHunksOut a c rest (ch :: ch2 :: cs'') ++ T := by
        simp [subHunksOut]
      have hlen2 : (A ++ renderHeader a (cf ch) c (ct ch) rest :: ch).length
            + (subHunksOut (a + cf ch) (c + ct ch) "" (ch2 :: cs'')).length
          = A.length + (subHunksOut a c rest (ch :: ch2 :: cs'')).length := by
        simp only [subHunksOut, List.length_append, List.length_cons]
        omega
      rw [hls, hlen2]

/-- A list's head, when present, is a member of its one-element take. -/
theorem head_mem_take_one (l : List String) (s : String) (h : l.head? = some s) :
    s ∈ l.take 1 := by
  cases l with
  | nil => cases h
  | cons x r =>
    injection h with h
    subst h
    simp

/-- Unpacking `stopsBody` into the form the walk lemmas consume. -/
theorem stopsBody_spec (s : String) (h : stopsBody s) :
    (∀ chr, s.data.head? = some chr → chr ≠ ' ' ∧ chr ≠ '+' ∧ chr ≠ '-')
    ∧ s ≠ "@#" := by
  obtain ⟨h1, h2, h3, h4⟩ := h
  refine ⟨fun chr hc => ⟨?_, ?_, ?_⟩, h4⟩ <;> intro he <;> subst he
  · exact h1 hc
  · exact h2 hc
  · exact h3 hc

/-- A line starting with `"@@"` stops the count walk: its head is `'@'` and
it cannot be the two-character marker `"@#"`. -/
theorem starts_at_stop (s : String) (hst : strStartsWith s "@@" = true) :
    (∀ chr, s.data.head? = some chr → chr ≠ ' ' ∧ chr ≠ '+' ∧ chr ≠ '-')
    ∧ s ≠ "@#" := by
  have hpre : ("@@" : String).data <+: s.data := List.isPrefixOf_iff_prefix.mp hst
  obtain ⟨t, ht⟩ := hpre
  rw [show ("@@" : String).data = ['@', '@'] from rfl] at ht
  constructor
  · intro chr hc
    rw [← ht] at hc
    simp only [List.cons_append, List.head?_cons] at hc
    injection hc with hcc
    subst hcc
    decide
  · intro he
    subst he
    rw [show ("@#" : String).data = ['@', '#'] from rfl] at ht
    simp only [List.cons_append, List.nil_append] at ht
    injection ht with h1 h2
    injection h2 with h3 h4
    exact absurd h3 (by decide)

/-- The renumbering pass over any run of hunk blocks: non-header material is
left alone and skipped, every hunk whose header parses is rewritten into its
sub-hunks, and the pass then proceeds to the next hunk. -/
theorem renumber_blocks_aux : ∀ (blocks : List HunkBlock) (Z A : List String),
    (∀ b ∈ blocks, ∀ s ∈ b.pre, strStartsWith s "@@" = false) →
    (∀ b ∈ blocks, (matchHeader b.header).isSome = true) →
    (∀ b ∈ blocks, b.chunks ≠ []) →
    (∀ b ∈ blocks, ∀ ch ∈ b.chunks, ∀ s ∈ ch, s.data.head? = some ' '
      ∨ s.data.head? = some '+' ∨ s.data.head? = some '-') →
    (∀ b ∈ blocks.tail, ∀ s ∈ b.pre.take 1, stopsBody s) →
    (∀ s ∈ Z, strStartsWith s "@@" = false) →
    (∀ s ∈ Z.take 1, stopsBody s) →
    renumberFrom ((hunkBlocksIn blocks).length + Z.length)
        (A ++ (hunkBlocksIn blocks ++ Z)) A.length
      = A ++ (hunkBlocksOut blocks ++ Z) := by
  intro blocks
  induction blocks with
  | nil =>
    intro Z A _ _ _ _ _ hZ _
    simp only [hunkBlocksIn, hunkBlocksOut, List.length_nil, List.nil_append, Nat.zero_add]
    rw [show Z.length = Z.length + 0 from rfl]
    rw [renumberFrom_skip Z.length (A ++ Z) A.length 0 (fun j hj => by
      obtain ⟨s, hs⟩ : ∃ s, Z.get? j = some s := ⟨Z.get ⟨j, hj⟩, List.get?_eq_get hj⟩
      refine ⟨s, ?_, hZ s (List.get?_mem hs)⟩
      rw [List.get?_append_right (Nat.le_add_right _ _)]
      rw [show A.length + j - A.length = j from by omega]
      exact hs)]
    rfl
  | cons b r ih =>
    intro Z A hpre hmh hne hchunks htail hZ hZstop
    obtain ⟨x, hx⟩ := Option.isSome_iff_exists.mp (hmh b (List.mem_cons_self _ _))
    obtain ⟨a, c, rest⟩ := x
    have hshape : A ++ (hunkBlocksIn (b :: r) ++ Z)
        = (A ++ b.pre) ++ b.header
            :: (interleaveSplits b.chunks ++ (hunkBlocksIn r ++ Z)) := by
      simp [hunkBlocksIn]
    have hlenfuel : (hunkBlocksIn (b :: r)).length + Z.length
        = b.pre.length + (1 + (interleaveSplits b.chunks).length
            + ((hunkBlocksIn r).length + Z.length)) := by
      simp only [hunkBlocksIn, List.length_append, List.length_cons]
      omega
    rw [hshape, hlenfuel]
    rw [renumberFrom_skip b.pre.length
        ((A ++ b.pre) ++ b.header :: (interleaveSplits b.chunks ++ (hunkBlocksIn r ++ Z)))
        A.length
        (1 + (interleaveSplits b.chunks).length + ((hunkBlocksIn r).length + Z.length))
        (by
          intro j hj
          obtain ⟨s, hs⟩ : ∃ s, b.pre.get? j = some s :=
            ⟨b.pre.get ⟨j, hj⟩, List.get?_eq_get hj⟩
          refine ⟨s, ?_, hpre b (List.mem_cons_self _ _) s (List.get?_mem hs)⟩
          rw [show (A ++ b.pre) ++ b.header
              :: (interleaveSplits b.chunks ++ (hunkBlocksIn r ++ Z))
              = A ++ (b.pre ++ b.header
                :: (interleaveSplits b.chunks ++ (hunkBlocksIn r ++ Z))) from by simp]
          rw [List.get?_append_right (Nat.le_add_right _ _)]
          rw [show A.length + j - A.length = j from by omega]
          rw [List.get?_append hj]
          exact hs)]
    rw [show A.length + b.pre.length = (A ++ b.pre).length from by simp]
    have hT2 : ∀ s, (hunkBlocksIn r ++ Z).head? = some s →
        (∀ chr, s.data.head? = some chr → chr ≠ ' ' ∧ chr ≠ '+' ∧ chr ≠ '-')
        ∧ s ≠ "@#" := by
      intro s hs
      cases r with
      | nil =>
        simp only [hunkBlocksIn, List.nil_append] at hs
        exact stopsBody_spec s (hZstop s (head_mem_take_one Z s hs))
      | cons b2 r2 =>
        cases hp : b2.pre with
        | nil =>
          have hhd : (hunkBlocksIn (b2 :: r2) ++ Z).head? = some b2.header := by
            simp [hunkBlocksIn, hp]
          rw [hhd] at hs
          injection hs with hss
          subst hss
          obtain ⟨y, hy⟩ := Option.isSome_iff_exists.mp
            (hmh b2 (List.mem_cons_of_mem _ (List.mem_cons_self _ _)))
          exact starts_at_stop _ (matchHeader_starts _ y hy)
        | cons p ps =>
          have hhd : (hunkBlocksIn (b2 :: r2) ++ Z).head? = some p := by
            simp [hunkBlocksIn, hp]
          rw [hhd] at hs
          injection hs with hss
          subst hss
          exact stopsBody_spec _ (htail b2 (by simp) _ (by simp [hp]))
    rw [renumber_hunk b.chunks (hne b (List.mem_cons_self _ _)) (A ++ b.pre) a c rest
      b.header (hunkBlocksIn r ++ Z) ((hunkBlocksIn r).length + Z.length) hx
      (hchunks b (List.mem_cons_self _ _)) hT2]
    rw [show (A ++ b.pre).length + (subHunksOut a c rest b.chunks).length
        = ((A ++ b.pre) ++ subHunksOut a c rest b.chunks).length from
      (List.length_append _ _).symm]
    rw [ih Z ((A ++ b.pre) ++ subHunksOut a c rest b.chunks)
      (fun b2 hb2 => hpre b2 (List.mem_cons_of_mem _ hb2))
      (fun b2 hb2 => hmh b2 (List.mem_cons_of_mem _ hb2))
      (fun b2 hb2 => hne b2 (List.mem_cons_of_mem _ hb2))
      (fun b2 hb2 => hchunks b2 (List.mem_cons_of_mem _ hb2))
      (fun b2 hb2 => htail b2 (List.mem_of_mem_tail hb2)) hZ hZstop]
    simp [hunkBlocksOut, blockOut, hx]

/-- C6 (sub-hunk header recomputation), amended: over a diff made of any
number of hunk blocks, each a run of non-header lines, a parsing hunk
header recording old start `a` and new start `c`, and a body whose lines
all begin with `' '`, `'+'` or `'-'`, cut into chunks by `"@#"` split
markers, the renumbering pass rewrites the text to
`hunkBlocksOut`: every emitted sub-hunk header carries its own chunk's
recomputed counts (`cf` counts the `' '` and `'-'` lines, `ct` the `' '`
and `'+'` lines) and start fields that carry forward as the previous
sub-hunk's starts plus its counts, and everything else is untouched.
Counts are additive over chunk concatenation, so splitting one hunk at one
interior point yields two sub-hunks whose old and new counts sum to the
whole body's recomputed counts, as the last conjunct spells out.
The restriction that body lines begin with `' '`, `'+'` or `'-'` is
forced: as spec_C6_cex shows, the claim as stated fails on bodies holding
a `'\'` continuation line, where the count walk stops early. -/
theorem spec_C6 (blocks : List HunkBlock) (Z : List String)
    (hpre : ∀ b ∈ blocks, ∀ s ∈ b.pre, strStartsWith s "@@" = false)
    (hmh : ∀ b ∈ blocks, (matchHeader b.header).isSome = true)
    (hne : ∀ b ∈ blocks, b.chunks ≠ [])
    (hchunks : ∀ b ∈ blocks, ∀ ch ∈ b.chunks, ∀ s ∈ ch, s.data.head? = some ' '
      ∨ s.data.head? = some '+' ∨ s.data.head? = some '-')
    (htail : ∀ b ∈ blocks.tail, ∀ s ∈ b.pre.take 1, stopsBody s)
    (hZ : ∀ s ∈ Z, strStartsWith s "@@" = false)
    (hZstop : ∀ s ∈ Z.take 1, stopsBody s) :
    renumberAll (hunkBlocksIn blocks ++ Z) = hunkBlocksOut blocks ++ Z
    ∧ (∀ x y : List String, cf (x ++ y) = cf x + cf y ∧ ct (x ++ y) = ct x + ct y)
    ∧ (∀ (a c : Nat) (rest : String) (x y : List String),
        subHunksOut a c rest [x, y]
          = renderHeader a (cf x) c (ct x) rest :: x
            ++ renderHeader (a + cf x) (cf y) (c + ct x) (ct y) "" :: y) := by
  refine ⟨?_, ?_, ?_⟩
  · have h := renumber_blocks_aux blocks Z [] hpre hmh hne hchunks htail hZ hZstop
    simpa [renumberAll, List.length_append] using h
  · intro x y
    constructor <;> simp [cf, ct, List.filter_append]
  · intro a c rest x y
    simp [subHunksOut]

/-- Counterexample to C6 as stated: the claim quantifies over every diff
text, but on a body holding a `'\ No newline at end of file'` line the
count walk stops at that line. Splitting
`@@ -1,2 +1,2 @@ | a|-b|\ No newline at end of file|+c` at line 5 puts
the marker after `+c`; the sub-range up to the marker has two `' '`-or-`'+'`
lines (`ct = 2`), so the claim predicts the rewritten header
`@@ -1,2 +1,2 @@` and a header in place of the marker — but the code emits
`@@ -1,2 +1,1 @@` (the `+c` after the `'\'` line is never counted) and the
`@#` marker survives unconverted at the end of the output. -/
theorem spec_C6_cex :
    applyHunkSplitting
        "@@ -1,2 +1,2 @@\n a\n-b\n\\ No newline at end of file\n+c" (some "5")
      = "@@ -1,2 +1,1 @@\n a\n-b\n\\ No newline at end of file\n+c\n@#"
    ∧ ct [" a", "-b", "\\ No newline at end of file", "+c"] = 2
    ∧ renderHeader 1 2 1 (ct [" a", "-b", "\\ No newline at end of file", "+c"]) ""
      = "@@ -1,2 +1,2 @@"
    ∧ ("@@ -1,2 +1,1 @@" : String) ≠ "@@ -1,2 +1,2 @@"
    ∧ strStartsWith "@#" "@@" = false := by
  refine ⟨by decide, by decide, by decide, by decide, by decide⟩

/-- Witness for C6: a two-file diff. The first hunk is the spec's worked
example split between `-b` and `+c`; the second file's hunk is split
between `-x` and `+y`; a trailing empty line closes the diff. -/
theorem spec_C6_witness :
    renumberAll (hunkBlocksIn
        [⟨["--- a/f", "+++ b/f"], "@@ -10,4 +10,5 @@", [[" a", "-b"], ["+c", "+d", " e"]]⟩,
         ⟨["diff --git a/g b/g", "--- a/g", "+++ b/g"], "@@ -1,1 +1,1 @@",
          [["-x"], ["+y"]]⟩] ++ [""])
      = hunkBlocksOut
        [⟨["--- a/f", "+++ b/f"], "@@ -10,4 +10,5 @@", [[" a", "-b"], ["+c", "+d", " e"]]⟩,
         ⟨["diff --git a/g b/g", "--- a/g", "+++ b/g"], "@@ -1,1 +1,1 @@",
          [["-x"], ["+y"]]⟩] ++ [""]
    ∧ (∀ x y : List String, cf (x ++ y) = cf x + cf y ∧ ct (x ++ y) = ct x + ct y)
    ∧ (∀ (a c : Nat) (rest : String) (x y : List String),
        subHunksOut a c rest [x, y]
          = renderHeader a (cf x) c (ct x) rest :: x
            ++ renderHeader (a + cf x) (cf y) (c + ct x) (ct y) "" :: y) :=
  spec_C6
    [⟨["--- a/f", "+++ b/f"], "@@ -10,4 +10,5 @@", [[" a", "-b"], ["+c", "+d", " e"]]⟩,
     ⟨["diff --git a/g b/g", "--- a/g", "+++ b/g"], "@@ -1,1 +1,1 @@",
      [["-x"], ["+y"]]⟩] [""]
    (by decide) (by decide) (by decide) (by decide) (by decide) (by decide) (by decide)

end StgitDiff
